import Mathlib

/-!
# Verification of the bitbucket-to-github-migrator core

A shallow embedding of the migration state machine and origin-rewrite engine of
the repository (files `bitbucket-to-github-migrator.py`, `origin_updater.py`,
`update-git-origins.py`), together with theorems settling the frozen claims.

Modelling conventions:
* Python `str` is modelled as `String` (lists of characters where convenient).
* `None` / exceptions of fallible operations are modelled with `Option`.
* Git subprocess calls and host-API calls are external collaborators; their
  results are inputs to the embedded functions (`RepoObs`, `EnvOutcome`), and
  their invocations are recorded as trace elements.
-/

namespace Migrator

/-! ## Origin Parser

`parse_bitbucket_origin` (origin_updater.py lines 49-60; the identical text
appears in update-git-origins.py lines 76-88) matches the two anchored regexes

    https://([^@]+@)?bitbucket\.org/([^/]+)/([^/]+?)(\.git)?$
    git@bitbucket\.org:([^/]+)/([^/]+?)(\.git)?$

with `re.match`.  The model below reproduces the backtracking search of the
regex engine deterministically:
* `$` (without MULTILINE) succeeds at the end of the string and also just
  before a single newline that ends the string;
* the slug group `[^/]+?` is lazy (shortest match first), the optional
  `(\.git)?` group is greedy (tried before the empty alternative);
* the workspace group `[^/]+` cannot cross a `/` and is followed by a literal
  `/`, and nothing after it may contain `/`, so its match is forced to end at
  the first `/` of the remaining input;
* the credential group `[^@]+@` cannot cross an `@`, so when it participates
  it necessarily ends at the first `@`; if the whole credentialed alternative
  fails, the engine retries with the group absent.
-/

def gitChars : List Char := ['.', 'g', 'i', 't']

def httpsPre : List Char := ['h', 't', 't', 'p', 's', ':', '/', '/']

def hostSlash : List Char :=
  ['b', 'i', 't', 'b', 'u', 'c', 'k', 'e', 't', '.', 'o', 'r', 'g', '/']

def sshPre : List Char :=
  ['g', 'i', 't', '@', 'b', 'i', 't', 'b', 'u', 'c', 'k', 'e', 't', '.', 'o', 'r', 'g', ':']

/-- The host literal without its trailing slash (used to reason about the
unique position of the first `/` after the host). -/
def bbDot : List Char :=
  ['b', 'i', 't', 'b', 'u', 'c', 'k', 'e', 't', '.', 'o', 'r', 'g']

/-- The tail of the slug pattern: `(\.git)?$` then `$`, with lazy slug growth.
`acc` is the (reversed) part of the slug matched so far; the next checks are
tried in the regex engine's preference order: first the greedy `.git` suffix
followed by `$`, then `$` directly (`t = [] ∨ t = ['\n']`), and only then is
one more (non-`/`) character added to the slug. -/
def slugLoop : List Char → List Char → Option (List Char)
  | acc, [] => some acc.reverse
  | acc, c :: t =>
    if (c :: t).take 4 = gitChars ∧ ((c :: t).drop 4 = [] ∨ (c :: t).drop 4 = ['\n']) then
      some acc.reverse
    else if c :: t = ['\n'] then
      some acc.reverse
    else if c = '/' then
      none
    else
      slugLoop (c :: acc) t

/-- Matches `([^/]+?)(\.git)?$` against the whole of `t`, returning the slug
capture. The lazy `+?` requires at least one character before any check. -/
def matchSlug : List Char → Option (List Char)
  | [] => none
  | c :: t => if c = '/' then none else slugLoop [c] t

/-- Matches `([^/]+)/([^/]+?)(\.git)?$` against the whole of the input.
The workspace accumulates in (reversed) `acc` up to the first `/`. -/
def wsLoop : List Char → List Char → Option (List Char × List Char)
  | _, [] => none
  | acc, c :: t =>
    if c = '/' then
      if acc = [] then none
      else (matchSlug t).map (fun s => (acc.reverse, s))
    else
      wsLoop (c :: acc) t

def matchWsSlug (v : List Char) : Option (List Char × List Char) :=
  wsLoop [] v

/-- Splits at the first `@`, returning the (necessarily `@`-free) part before
it and the part after it. -/
def splitAtAmp : List Char → Option (List Char × List Char)
  | [] => none
  | c :: t =>
    if c = '@' then some ([], t)
    else (splitAtAmp t).map (fun p => (c :: p.1, p.2))

/-- The credentialed alternative `([^@]+@)bitbucket\.org/...` of the HTTPS
regex: the credential part must be nonempty and end at the first `@`. -/
def httpsCred (t : List Char) : Option (List Char × List Char) :=
  match splitAtAmp t with
  | none => none
  | some (c, u) =>
    if c = [] then none
    else if u.take 14 = hostSlash then matchWsSlug (u.drop 14) else none

/-- Matches `([^@]+@)?bitbucket\.org/([^/]+)/([^/]+?)(\.git)?$` against the
part of the URL after `https://`; the engine prefers the credentialed
alternative and falls back to the credential-free one. -/
def matchHttps (t : List Char) : Option (List Char × List Char) :=
  match httpsCred t with
  | some r => some r
  | none => if t.take 14 = hostSlash then matchWsSlug (t.drop 14) else none

/-- `parse_bitbucket_origin` (origin_updater.py lines 49-60): try the HTTPS
regex, then the SSH regex, returning the `(workspace, repo)` captures. -/
def parse_bitbucket_origin (origin : String) : Option (String × String) :=
  let v := origin.toList
  match (if v.take 8 = httpsPre then matchHttps (v.drop 8) else none) with
  | some (w, r) => some (w.asString, r.asString)
  | none =>
    match (if v.take 18 = sshPre then matchWsSlug (v.drop 18) else none) with
    | some (w, r) => some (w.asString, r.asString)
    | none => none

/-- The textually identical copy in update-git-origins.py lines 76-88. -/
def ugo_parse_bitbucket_origin (origin : String) : Option (String × String) :=
  let v := origin.toList
  match (if v.take 8 = httpsPre then matchHttps (v.drop 8) else none) with
  | some (w, r) => some (w.asString, r.asString)
  | none =>
    match (if v.take 18 = sshPre then matchWsSlug (v.drop 18) else none) with
    | some (w, r) => some (w.asString, r.asString)
    | none => none

/-! ### URL shapes claimed for the Origin Parser

The claim's grammar, written out over character lists.  `TailShape t w r`
says `t` is `<workspace>/<slug>[.git]` with the stated side conditions —
plus the amendment forced by Python's `$`: one optional final newline. -/

def TailShape (t w r : List Char) : Prop :=
  ∃ suf nl, t = w ++ '/' :: (r ++ suf ++ nl) ∧ w ≠ [] ∧ '/' ∉ w ∧
    r ≠ [] ∧ '/' ∉ r ∧ (suf = [] ∨ suf = gitChars) ∧ (nl = [] ∨ nl = ['\n'])

/-- An optional credential part: absent, or a nonempty `@`-free chunk
followed by `@`. -/
def CredShape (cred : List Char) : Prop :=
  cred = [] ∨ ∃ c, c ≠ [] ∧ '@' ∉ c ∧ cred = c ++ ['@']

/-- `https://[credentials@]bitbucket.org/<workspace>/<slug>[.git]` with an
optional final newline, capturing `(w, r)`. -/
def IsHttpsUrl (v w r : List Char) : Prop :=
  ∃ cred u, CredShape cred ∧ v = httpsPre ++ (cred ++ (hostSlash ++ u)) ∧
    TailShape u w r

/-- `git@bitbucket.org:<workspace>/<slug>[.git]` with an optional final
newline, capturing `(w, r)`. -/
def IsSshUrl (v w r : List Char) : Prop :=
  ∃ u, v = sshPre ++ u ∧ TailShape u w r

/-! ## State Ledger

Persisted state is a JSON file mapping `"workspace/slug"` to
`{status, target_owner, target_name}`.  JSON values as produced by
`json.load` (floating-point numbers are not modelled; the claims do not
involve them).  `Json.jobj` models an already-parsed Python dict, so its
key list is duplicate-free in every reachable use. -/
inductive Json where
  | jnull : Json
  | jbool : Bool → Json
  | jnum : Int → Json
  | jstr : String → Json
  | jarr : List Json → Json
  | jobj : List (String × Json) → Json

-- Python `repr` of a JSON value (the value of `str` on non-string values).
-- Escaping of quotes inside reprs of nested strings is not modelled; no
-- claim depends on it.
mutual
def pyRepr : Json → String
  | .jnull => "None"
  | .jbool true => "True"
  | .jbool false => "False"
  | .jnum n => toString n
  | .jstr s => "'" ++ s ++ "'"
  | .jarr xs => "[" ++ pyReprArr xs ++ "]"
  | .jobj fs => "\x7b" ++ pyReprObj fs ++ "\x7d"

def pyReprArr : List Json → String
  | [] => ""
  | [x] => pyRepr x
  | x :: xs => pyRepr x ++ ", " ++ pyReprArr xs

def pyReprObj : List (String × Json) → String
  | [] => ""
  | [(k, v)] => "'" ++ k ++ "': " ++ pyRepr v
  | (k, v) :: fs => "'" ++ k ++ "': " ++ pyRepr v ++ ", " ++ pyReprObj fs
end

/-- Python `str()` applied to a JSON value. -/
def pyStr : Json → String
  | .jstr s => s
  | j => pyRepr j

/-- A normalized ledger entry, as produced by both `load_state`
implementations (all three keys always present). -/
structure StateEntry where
  status : String
  target_owner : String
  target_name : String
deriving DecidableEq

/-- The in-memory ledger: a Python dict modelled as an association list in
insertion order with unique keys maintained by `insertOrReplace`. -/
abbrev Ledger := List (String × StateEntry)

/-- Python dict lookup (`state[key]` / `key in state`). -/
def lookupLedger : Ledger → String → Option StateEntry
  | [], _ => none
  | (k, e) :: rest, key => if k = key then some e else lookupLedger rest key

/-- Python dict assignment `d[key] = e`: replaces in place if the key exists
(keeping its position), otherwise appends. -/
def insertOrReplace : Ledger → String → StateEntry → Ledger
  | [], key, e => [(key, e)]
  | (k, e') :: rest, key, e =>
    if k = key then (k, e) :: rest else (k, e') :: insertOrReplace rest key e

/-- `value.get(k, default)` on a parsed JSON dict's fields. -/
def pyGet : List (String × Json) → String → Json → Json
  | [], _, d => d
  | (k, v) :: fs, key, d => if k = key then v else pyGet fs key d

/-- The normalization loop shared (up to the status default) by both
`load_state` implementations: keep dict-valued entries, stringify the three
known fields.  `bitbucket-to-github-migrator.py` lines 155-162 use default
`"pending"` for a missing status, `update-git-origins.py` lines 52-59 use
`""`. -/
def stateFromFields (defStatus : String) (fields : List (String × Json)) : Ledger :=
  fields.foldl
    (fun acc kv =>
      match kv.2 with
      | .jobj fs =>
        insertOrReplace acc kv.1
          ⟨pyStr (pyGet fs "status" (.jstr defStatus)),
           pyStr (pyGet fs "target_owner" (.jstr "")),
           pyStr (pyGet fs "target_name" (.jstr ""))⟩
      | _ => acc)
    []

/-- The observable condition of the persisted state file: absent, present but
unreadable or unparseable (`open`/`json.load` raises), or parsed JSON. -/
inductive FileContent where
  | missing : FileContent
  | unreadable : FileContent
  | parsed : Json → FileContent

/-- `load_state` of bitbucket-to-github-migrator.py lines 148-166: the whole
read is wrapped in `try/except Exception: return {}`, a non-dict top level
falls through to the final `return {}`. -/
def migrator_load_state : FileContent → Ledger
  | .missing => []
  | .unreadable => []
  | .parsed (.jobj fields) => stateFromFields "pending" fields
  | .parsed _ => []

/-- `load_state` of update-git-origins.py lines 45-60: no `try/except`, so an
unreadable or unparseable file raises (modelled as `none`); a parsed non-dict
top level returns `{}`. -/
def ugo_load_state : FileContent → Option Ledger
  | .missing => some []
  | .unreadable => none
  | .parsed (.jobj fields) => some (stateFromFields "" fields)
  | .parsed _ => some []

/-- Whether a JSON value is a dict (Python `isinstance(data, dict)`). -/
def jsonIsDict : Json → Bool
  | .jobj _ => true
  | _ => false

/-! ## Update Planner (`build_updates`) and Reconciliation Applier

The git reads performed per candidate path are modelled as a pre-sampled
observation: `origin` is the result of `git remote get-url origin`
(`none` = nonzero exit, i.e. `RuntimeError`), `pushurl` the result of
`run_git_optional(["git", "remote", "get-url", "--push", "origin"])`
(`none` = nonzero exit or empty stripped output). -/
structure RepoObs where
  path : String
  origin : Option String
  pushurl : Option String
deriving DecidableEq

/-- The `RepoUpdate` dataclass (identical in both files). -/
structure RepoUpdate where
  path : String
  current_origin : String
  current_pushurl : Option String
  source_key : String
  target_owner : String
  target_name : String
  new_origin : String
  from_state : Bool
  update_pushurl : Bool
  pushurl_conflict : Bool
deriving DecidableEq

/-- One iteration of `build_updates` in origin_updater.py lines 67-109:
skip on failed origin read, skip on parse failure, then resolve the target
from the ledger and compute the push-URL flags.  Python truthiness of
`entry.get(...)` and `if pushurl:` is the `≠ ""` / `none` test. -/
def ou_buildOne (state : Ledger) (default_owner : String) (obs : RepoObs) :
    Option RepoUpdate :=
  match obs.origin with
  | none => none
  | some origin =>
    match parse_bitbucket_origin origin with
    | none => none
    | some (workspace, repo) =>
      let pushurl := obs.pushurl
      let key := workspace ++ "/" ++ repo
      let resolved : String × String × Bool :=
        match lookupLedger state key with
        | none => (default_owner, repo, false)
        | some entry =>
          ((if entry.target_owner ≠ "" then entry.target_owner else default_owner),
           (if entry.target_name ≠ "" then entry.target_name else repo),
           true)
      let flags : Bool × Bool :=
        match pushurl with
        | none => (false, false)
        | some pu =>
          if pu = "" then (false, false)
          else if pu = origin then (true, false)
          else (false, true)
      some
        { path := obs.path
          current_origin := origin
          current_pushurl := pushurl
          source_key := key
          target_owner := resolved.1
          target_name := resolved.2.1
          new_origin := "git@github.com:" ++ resolved.1 ++ "/" ++ resolved.2.1 ++ ".git"
          from_state := resolved.2.2
          update_pushurl := flags.1
          pushurl_conflict := flags.2 }

/-- `build_updates` of origin_updater.py lines 63-110. -/
def ou_build_updates (repos : List RepoObs) (state : Ledger) (default_owner : String) :
    List RepoUpdate :=
  repos.filterMap (ou_buildOne state default_owner)

/-- One iteration of `build_updates` in update-git-origins.py lines 95-137:
identical except that the push URL is read before the parse check (in the
pre-sampled-observation model the read order is invisible). -/
def ugo_buildOne (state : Ledger) (default_owner : String) (obs : RepoObs) :
    Option RepoUpdate :=
  match obs.origin with
  | none => none
  | some origin =>
    let pushurl := obs.pushurl
    match ugo_parse_bitbucket_origin origin with
    | none => none
    | some (workspace, repo) =>
      let key := workspace ++ "/" ++ repo
      let resolved : String × String × Bool :=
        match lookupLedger state key with
        | none => (default_owner, repo, false)
        | some entry =>
          ((if entry.target_owner ≠ "" then entry.target_owner else default_owner),
           (if entry.target_name ≠ "" then entry.target_name else repo),
           true)
      let flags : Bool × Bool :=
        match pushurl with
        | none => (false, false)
        | some pu =>
          if pu = "" then (false, false)
          else if pu = origin then (true, false)
          else (false, true)
      some
        { path := obs.path
          current_origin := origin
          current_pushurl := pushurl
          source_key := key
          target_owner := resolved.1
          target_name := resolved.2.1
          new_origin := "git@github.com:" ++ resolved.1 ++ "/" ++ resolved.2.1 ++ ".git"
          from_state := resolved.2.2
          update_pushurl := flags.1
          pushurl_conflict := flags.2 }

/-- `build_updates` of update-git-origins.py lines 91-138. -/
def ugo_build_updates (repos : List RepoObs) (state : Ledger) (default_owner : String) :
    List RepoUpdate :=
  repos.filterMap (ugo_buildOne state default_owner)

/-- A `git remote set-url` invocation (`isPush` = the `--push` form). -/
structure SetAction where
  path : String
  isPush : Bool
  url : String
deriving DecidableEq

/-- `apply_updates` of origin_updater.py lines 125-135: per update, set the
origin fetch URL, set the push URL only when `update_pushurl`, collect
conflicts.  The set-url effects are returned as a trace. -/
def ou_apply_updates : List RepoUpdate → List SetAction × List RepoUpdate
  | [] => ([], [])
  | u :: rest =>
    let tail := ou_apply_updates rest
    ((⟨u.path, false, u.new_origin⟩ ::
        (if u.update_pushurl then [⟨u.path, true, u.new_origin⟩] else [])) ++ tail.1,
     (if u.pushurl_conflict then [u] else []) ++ tail.2)

/-- `apply_updates` of update-git-origins.py lines 153-163 (textually the
same loop). -/
def ugo_apply_updates : List RepoUpdate → List SetAction × List RepoUpdate
  | [] => ([], [])
  | u :: rest =>
    let tail := ugo_apply_updates rest
    ((⟨u.path, false, u.new_origin⟩ ::
        (if u.update_pushurl then [⟨u.path, true, u.new_origin⟩] else [])) ++ tail.1,
     (if u.pushurl_conflict then [u] else []) ++ tail.2)

/-! ## Migration Orchestrator (bitbucket-to-github-migrator.py) -/

/-- The `BitbucketRepo` dataclass (lines 23-29). -/
structure BitbucketRepo where
  workspace : String
  slug : String
  name : String
  https_clone : String
  web_url : String
deriving DecidableEq

/-- The `RepoPlan` dataclass (lines 32-37). -/
structure RepoPlan where
  source : BitbucketRepo
  target_owner : String
  target_name : String
  status : String
deriving DecidableEq

/-- `source_key` (lines 144-145). -/
def source_key (r : BitbucketRepo) : String :=
  r.workspace ++ "/" ++ r.slug

def planKey (p : RepoPlan) : String :=
  source_key p.source

def planEntry (p : RepoPlan) : StateEntry :=
  ⟨p.status, p.target_owner, p.target_name⟩

/-- `save_state` (lines 169-178): builds a fresh dict from the current plans
only and replaces the file's contents with it.  (`json.dump` with
`sort_keys=True` affects only the on-disk key order, not the mapping.) -/
def save_state (plans : List RepoPlan) : Ledger :=
  plans.foldl (fun acc p => insertOrReplace acc (planKey p) (planEntry p)) []

/-- `apply_existing_state` (lines 181-194), with the loaded state passed
explicitly.  State entries are `load_state` output, so all three fields are
present; `if existing_owner and existing_name` is the both-nonempty test. -/
def apply_existing_state (state : Ledger) (plans : List RepoPlan) : List RepoPlan :=
  if state = [] then plans
  else
    plans.map fun p =>
      match lookupLedger state (planKey p) with
      | none => p
      | some e =>
        let p1 := { p with status := e.status }
        if e.target_owner ≠ "" ∧ e.target_name ≠ "" then
          { p1 with target_owner := e.target_owner, target_name := e.target_name }
        else p1

/-- Outcome of `create_github_repo` (lines 328-351): repository created
(status 201/202), already exists (422), or `RuntimeError`/network error. -/
inductive CreateRes where
  | createdNew : CreateRes
  | alreadyExists : CreateRes
  | raised : CreateRes
deriving DecidableEq

/-- Pre-sampled external outcomes for one iteration of the migration loop:
`infoEmpty` is the emptiness of the existing GitHub repository as computed
from `fetch_github_repo_info` (`none` = the fetch raised), `proceedAnswer`
the operator's answer to the non-empty-repository prompt, `mirrorOk` whether
`mirror_repo` succeeded or raised. -/
structure EnvOutcome where
  create : CreateRes
  infoEmpty : Option Bool
  proceedAnswer : Bool
  mirrorOk : Bool
deriving DecidableEq

/-- Whether the `try` block of lines 608-644 raises with this outcome
(the `except Exception` handler of lines 645-650 fires). -/
def tryRaised (env : EnvOutcome) : Bool :=
  match env.create with
  | .raised => true
  | .createdNew => !env.mirrorOk
  | .alreadyExists =>
    match env.infoEmpty with
    | none => true
    | some empt =>
      if empt then !env.mirrorOk
      else if env.proceedAnswer then !env.mirrorOk
      else false

/-- Trace of one or more iterations of the migration loop: final in-memory
plans, every ledger snapshot persisted by `save_state`, and the iteration
indices at which `mirror_repo`, `fetch_github_repo_info` and
`create_github_repo` were invoked. -/
structure LoopTrace where
  plans : List RepoPlan
  saves : List Ledger
  mirrored : List Nat
  infoCalls : List Nat
  createCalls : List Nat
deriving DecidableEq

/-- The common tail of every non-skipped iteration: plan `i` was first set to
`in_progress` and saved (line 605-606), then set to `st` and saved again.
Since only `status` changes, `{p1 with status := st} = {p with status := st}`
and the double `List.set` collapses below. -/
def stepFinish (plans : List RepoPlan) (i : Nat) (p : RepoPlan) (st : String)
    (mir inf : List Nat) : LoopTrace :=
  let plans1 := plans.set i { p with status := "in_progress" }
  let plans2 := plans1.set i { p with status := st }
  ⟨plans2, [save_state plans1, save_state plans2], mir, inf, [i]⟩

/-- One iteration of the migration loop of `main` (lines 599-650) acting on
plan `i`: skip if the plan is already `done`; otherwise persist
`in_progress`, run the try block (create, optionally fetch info and prompt,
mirror), and persist `done` on success, `pending` on a caught exception or an
operator-declined non-empty repository. -/
def processOne (plans : List RepoPlan) (i : Nat) (env : EnvOutcome) : LoopTrace :=
  match plans[i]? with
  | none => ⟨plans, [], [], [], []⟩
  | some p =>
    if p.status = "done" then ⟨plans, [], [], [], []⟩
    else
      match env.create with
      | .raised => stepFinish plans i p "pending" [] []
      | .createdNew =>
        if env.mirrorOk then stepFinish plans i p "done" [i] []
        else stepFinish plans i p "pending" [i] []
      | .alreadyExists =>
        match env.infoEmpty with
        | none => stepFinish plans i p "pending" [] [i]
        | some empt =>
          if empt then
            if env.mirrorOk then stepFinish plans i p "done" [i] [i]
            else stepFinish plans i p "pending" [i] [i]
          else if env.proceedAnswer then
            if env.mirrorOk then stepFinish plans i p "done" [i] [i]
            else stepFinish plans i p "pending" [i] [i]
          else stepFinish plans i p "pending" [] [i]

/-- The migration loop, starting at plan index `i` with one pre-sampled
outcome per remaining iteration. -/
def migrateLoop : List RepoPlan → List EnvOutcome → Nat → LoopTrace
  | plans, [], _ => ⟨plans, [], [], [], []⟩
  | plans, env :: rest, i =>
    let a := migrateLoop (processOne plans i env).plans rest (i + 1)
    ⟨a.plans, (processOne plans i env).saves ++ a.saves,
      (processOne plans i env).mirrored ++ a.mirrored,
      (processOne plans i env).infoCalls ++ a.infoCalls,
      (processOne plans i env).createCalls ++ a.createCalls⟩

/-- The whole migration loop of `main` lines 598-650. -/
def migrate (plans : List RepoPlan) (envs : List EnvOutcome) : LoopTrace :=
  migrateLoop plans envs 0

/-! ### Concrete inputs used by witnesses -/

def wRepoA : BitbucketRepo := ⟨"w", "a", "a", "h", "u"⟩

def wRepoB : BitbucketRepo := ⟨"w", "b", "b", "h", "u"⟩

def wRepoC : BitbucketRepo := ⟨"w", "c", "c", "h", "u"⟩

def wPlanDone : RepoPlan := ⟨wRepoA, "o", "a", "done"⟩

def wPlanB : RepoPlan := ⟨wRepoB, "o", "b", "pending"⟩

def wPlanC : RepoPlan := ⟨wRepoC, "o", "c", "pending"⟩

def wEnvOk : EnvOutcome := ⟨.createdNew, none, false, true⟩

def wEnvRaise : EnvOutcome := ⟨.raised, none, false, true⟩

/-! ## Ledger lemmas -/

theorem lookup_insertOrReplace_self (L : Ledger) (k : String) (e : StateEntry) :
    lookupLedger (insertOrReplace L k e) k = some e := by
  induction L with
  | nil => simp [insertOrReplace, lookupLedger]
  | cons kv rest ih =>
    obtain ⟨k0, e0⟩ := kv
    by_cases h : k0 = k
    · simp [insertOrReplace, lookupLedger, h]
    · simp [insertOrReplace, lookupLedger, h, ih]

theorem lookup_insertOrReplace_ne (L : Ledger) (k q : String) (e : StateEntry)
    (h : q ≠ k) : lookupLedger (insertOrReplace L k e) q = lookupLedger L q := by
  induction L with
  | nil =>
    simp only [insertOrReplace, lookupLedger]
    rw [if_neg (fun hq => h hq.symm)]
  | cons kv rest ih =>
    obtain ⟨k0, e0⟩ := kv
    by_cases h0 : k0 = k
    · subst h0
      simp only [insertOrReplace, if_pos rfl, lookupLedger]
      rw [if_neg (fun hq => h hq.symm), if_neg (fun hq => h hq.symm)]
    · simp only [insertOrReplace, if_neg h0, lookupLedger]
      by_cases hq : k0 = q
      · simp [hq]
      · simp [hq, ih]

/-- The fold that `save_state` performs. -/
def saveFold (acc : Ledger) (ps : List RepoPlan) : Ledger :=
  ps.foldl (fun a p => insertOrReplace a (planKey p) (planEntry p)) acc

theorem save_state_eq_saveFold (plans : List RepoPlan) :
    save_state plans = saveFold [] plans := rfl

theorem lookup_saveFold_notMem (ps : List RepoPlan) :
    ∀ (acc : Ledger) (k : String), k ∉ ps.map planKey →
      lookupLedger (saveFold acc ps) k = lookupLedger acc k := by
  induction ps with
  | nil => intro acc k _; rfl
  | cons p rest ih =>
    intro acc k hk
    simp only [List.map_cons, List.mem_cons, not_or] at hk
    rw [show saveFold acc (p :: rest) =
        saveFold (insertOrReplace acc (planKey p) (planEntry p)) rest from rfl,
      ih _ k hk.2, lookup_insertOrReplace_ne _ _ _ _ hk.1]

theorem lookup_saveFold_isSome (ps : List RepoPlan) :
    ∀ (acc : Ledger) (k : String),
      (lookupLedger (saveFold acc ps) k).isSome ↔
        k ∈ ps.map planKey ∨ (lookupLedger acc k).isSome := by
  induction ps with
  | nil => intro acc k; simp [saveFold]
  | cons p rest ih =>
    intro acc k
    rw [show saveFold acc (p :: rest) =
        saveFold (insertOrReplace acc (planKey p) (planEntry p)) rest from rfl, ih]
    by_cases hk : k = planKey p
    · subst hk
      simp [lookup_insertOrReplace_self]
    · rw [lookup_insertOrReplace_ne _ _ _ _ hk]
      simp only [List.map_cons, List.mem_cons]
      constructor
      · rintro (h | h)
        · exact Or.inl (Or.inr h)
        · exact Or.inr h
      · rintro (h | h)
        · rcases h with h | h
          · exact absurd h.symm (fun hh => hk hh.symm)
          · exact Or.inl h
        · exact Or.inr h

theorem lookup_saveFold_nodup (ps : List RepoPlan) :
    ∀ (acc : Ledger) (i : Nat) (p : RepoPlan), ps[i]? = some p →
      (ps.map planKey).Nodup →
      lookupLedger (saveFold acc ps) (planKey p) = some (planEntry p) := by
  induction ps with
  | nil => intro acc i p h _; simp at h
  | cons q rest ih =>
    intro acc i p hp hnd
    simp only [List.map_cons, List.nodup_cons] at hnd
    match i, hp with
    | 0, hp =>
      simp only [List.getElem?_cons_zero, Option.some.injEq] at hp
      rw [← hp]
      rw [show saveFold acc (q :: rest) =
          saveFold (insertOrReplace acc (planKey q) (planEntry q)) rest from rfl,
        lookup_saveFold_notMem _ _ _ hnd.1, lookup_insertOrReplace_self]
    | (i + 1), hp =>
      simp only [List.getElem?_cons_succ] at hp
      exact ih _ i p hp hnd.2

theorem lookup_save_state_isSome (plans : List RepoPlan) (k : String) :
    (lookupLedger (save_state plans) k).isSome ↔ k ∈ plans.map planKey := by
  rw [save_state_eq_saveFold, lookup_saveFold_isSome]
  simp [lookupLedger]

theorem lookup_save_state_nodup (plans : List RepoPlan) (i : Nat) (p : RepoPlan)
    (hp : plans[i]? = some p) (hnd : (plans.map planKey).Nodup) :
    lookupLedger (save_state plans) (planKey p) = some (planEntry p) := by
  rw [save_state_eq_saveFold]
  exact lookup_saveFold_nodup plans [] i p hp hnd

/-- Replacing an element by one with the same image leaves the mapped list
unchanged. -/
theorem map_set_same {α β : Type} (f : α → β) :
    ∀ (l : List α) (i : Nat) (a b : α), l[i]? = some a → f b = f a →
      (l.set i b).map f = l.map f := by
  intro l
  induction l with
  | nil => intro i a b h _; simp at h
  | cons x rest ih =>
    intro i a b h hf
    match i, h with
    | 0, h =>
      simp only [List.getElem?_cons_zero, Option.some.injEq] at h
      subst h
      simp [List.set, hf]
    | (i + 1), h =>
      simp only [List.getElem?_cons_succ] at h
      simp [List.set, ih i a b h hf]

/-! ## Orchestrator lemmas -/

theorem planKey_status (p : RepoPlan) (st : String) :
    planKey { p with status := st } = planKey p := rfl

theorem stepFinish_plans (plans : List RepoPlan) (i : Nat) (p : RepoPlan)
    (st : String) (mir inf : List Nat) :
    (stepFinish plans i p st mir inf).plans = plans.set i { p with status := st } := by
  simp [stepFinish, List.set_set]

theorem stepFinish_saves (plans : List RepoPlan) (i : Nat) (p : RepoPlan)
    (st : String) (mir inf : List Nat) :
    (stepFinish plans i p st mir inf).saves =
      [save_state (plans.set i { p with status := "in_progress" }),
       save_state (plans.set i { p with status := st })] := by
  simp [stepFinish, List.set_set]

theorem stepFinish_mirrored (plans : List RepoPlan) (i : Nat) (p : RepoPlan)
    (st : String) (mir inf : List Nat) :
    (stepFinish plans i p st mir inf).mirrored = mir := rfl

theorem stepFinish_infoCalls (plans : List RepoPlan) (i : Nat) (p : RepoPlan)
    (st : String) (mir inf : List Nat) :
    (stepFinish plans i p st mir inf).infoCalls = inf := rfl

theorem stepFinish_createCalls (plans : List RepoPlan) (i : Nat) (p : RepoPlan)
    (st : String) (mir inf : List Nat) :
    (stepFinish plans i p st mir inf).createCalls = [i] := rfl

theorem processOne_none (plans : List RepoPlan) (i : Nat) (env : EnvOutcome)
    (h : plans[i]? = none) : processOne plans i env = ⟨plans, [], [], [], []⟩ := by
  simp [processOne, h]

theorem processOne_done (plans : List RepoPlan) (i : Nat) (env : EnvOutcome)
    (p : RepoPlan) (h : plans[i]? = some p) (hd : p.status = "done") :
    processOne plans i env = ⟨plans, [], [], [], []⟩ := by
  simp [processOne, h, hd]

/-- Every iteration either skips (out of range or `done`) or runs the try
block to completion via `stepFinish`; the final status is `pending` whenever
the try block raised. -/
theorem processOne_cases (plans : List RepoPlan) (i : Nat) (env : EnvOutcome) :
    processOne plans i env = ⟨plans, [], [], [], []⟩ ∨
    ∃ p st mir inf, plans[i]? = some p ∧ p.status ≠ "done" ∧
      processOne plans i env = stepFinish plans i p st mir inf ∧
      (∀ x ∈ mir, x = i) ∧ (∀ x ∈ inf, x = i) ∧
      (tryRaised env = true → st = "pending") := by
  cases h : plans[i]? with
  | none => exact Or.inl (processOne_none plans i env h)
  | some p =>
    by_cases hd : p.status = "done"
    · exact Or.inl (processOne_done plans i env p h hd)
    · right
      cases hcr : env.create with
      | raised =>
        exact ⟨p, "pending", [], [], rfl, hd, by simp [processOne, h, hd, hcr],
          by simp, by simp, fun _ => rfl⟩
      | createdNew =>
        cases hm : env.mirrorOk with
        | true =>
          exact ⟨p, "done", [i], [], rfl, hd, by simp [processOne, h, hd, hcr, hm],
            by simp, by simp, by simp [tryRaised, hcr, hm]⟩
        | false =>
          exact ⟨p, "pending", [i], [], rfl, hd, by simp [processOne, h, hd, hcr, hm],
            by simp, by simp, fun _ => rfl⟩
      | alreadyExists =>
        cases hinfo : env.infoEmpty with
        | none =>
          exact ⟨p, "pending", [], [i], rfl, hd, by simp [processOne, h, hd, hcr, hinfo],
            by simp, by simp, fun _ => rfl⟩
        | some empt =>
          cases empt with
          | true =>
            cases hm : env.mirrorOk with
            | true =>
              exact ⟨p, "done", [i], [i], rfl, hd,
                by simp [processOne, h, hd, hcr, hinfo, hm],
                by simp, by simp, by simp [tryRaised, hcr, hinfo, hm]⟩
            | false =>
              exact ⟨p, "pending", [i], [i], rfl, hd,
                by simp [processOne, h, hd, hcr, hinfo, hm],
                by simp, by simp, fun _ => rfl⟩
          | false =>
            cases hpa : env.proceedAnswer with
            | true =>
              cases hm : env.mirrorOk with
              | true =>
                exact ⟨p, "done", [i], [i], rfl, hd,
                  by simp [processOne, h, hd, hcr, hinfo, hpa, hm],
                  by simp, by simp, by simp [tryRaised, hcr, hinfo, hpa, hm]⟩
              | false =>
                exact ⟨p, "pending", [i], [i], rfl, hd,
                  by simp [processOne, h, hd, hcr, hinfo, hpa, hm],
                  by simp, by simp, fun _ => rfl⟩
            | false =>
              exact ⟨p, "pending", [], [i], rfl, hd,
                by simp [processOne, h, hd, hcr, hinfo, hpa],
                by simp, by simp, fun _ => rfl⟩

/-- When the try block raises, the iteration ends in `pending`. -/
theorem processOne_raised (plans : List RepoPlan) (i : Nat) (env : EnvOutcome)
    (p : RepoPlan) (h : plans[i]? = some p) (hd : p.status ≠ "done")
    (hr : tryRaised env = true) :
    ∃ mir inf, processOne plans i env = stepFinish plans i p "pending" mir inf := by
  cases hcr : env.create with
  | raised => exact ⟨[], [], by simp [processOne, h, hd, hcr]⟩
  | createdNew =>
    cases hm : env.mirrorOk with
    | true => exact absurd hr (by simp [tryRaised, hcr, hm])
    | false => exact ⟨[i], [], by simp [processOne, h, hd, hcr, hm]⟩
  | alreadyExists =>
    cases hinfo : env.infoEmpty with
    | none => exact ⟨[], [i], by simp [processOne, h, hd, hcr, hinfo]⟩
    | some empt =>
      cases empt with
      | true =>
        cases hm : env.mirrorOk with
        | true => exact absurd hr (by simp [tryRaised, hcr, hinfo, hm])
        | false => exact ⟨[i], [i], by simp [processOne, h, hd, hcr, hinfo, hm]⟩
      | false =>
        cases hpa : env.proceedAnswer with
        | true =>
          cases hm : env.mirrorOk with
          | true => exact absurd hr (by simp [tryRaised, hcr, hinfo, hpa, hm])
          | false => exact ⟨[i], [i], by simp [processOne, h, hd, hcr, hinfo, hpa, hm]⟩
        | false => exact absurd hr (by simp [tryRaised, hcr, hinfo, hpa])

theorem processOne_getq_ne (plans : List RepoPlan) (i : Nat) (env : EnvOutcome)
    (j : Nat) (hj : j ≠ i) : (processOne plans i env).plans[j]? = plans[j]? := by
  rcases processOne_cases plans i env with hn | ⟨p, st, mir, inf, hp, hd, he, _, _, _⟩
  · rw [hn]
  · rw [he, stepFinish_plans, List.getElem?_set_ne (Ne.symm hj)]

theorem processOne_length (plans : List RepoPlan) (i : Nat) (env : EnvOutcome) :
    (processOne plans i env).plans.length = plans.length := by
  rcases processOne_cases plans i env with hn | ⟨p, st, mir, inf, hp, hd, he, _, _, _⟩
  · rw [hn]
  · rw [he, stepFinish_plans, List.length_set]

theorem processOne_mapKey (plans : List RepoPlan) (i : Nat) (env : EnvOutcome) :
    (processOne plans i env).plans.map planKey = plans.map planKey := by
  rcases processOne_cases plans i env with hn | ⟨p, st, mir, inf, hp, hd, he, _, _, _⟩
  · rw [hn]
  · rw [he, stepFinish_plans, map_set_same planKey plans i p _ hp (planKey_status p st)]

theorem processOne_mirrored_eq (plans : List RepoPlan) (i : Nat) (env : EnvOutcome) :
    ∀ x ∈ (processOne plans i env).mirrored, x = i := by
  rcases processOne_cases plans i env with hn | ⟨p, st, mir, inf, hp, hd, he, hm, _, _⟩
  · rw [hn]; intro x hx; exact absurd hx (List.not_mem_nil x)
  · rw [he, stepFinish_mirrored]; exact hm

theorem processOne_infoCalls_eq (plans : List RepoPlan) (i : Nat) (env : EnvOutcome) :
    ∀ x ∈ (processOne plans i env).infoCalls, x = i := by
  rcases processOne_cases plans i env with hn | ⟨p, st, mir, inf, hp, hd, he, _, hi, _⟩
  · rw [hn]; intro x hx; exact absurd hx (List.not_mem_nil x)
  · rw [he, stepFinish_infoCalls]; exact hi

theorem processOne_createCalls_eq (plans : List RepoPlan) (i : Nat) (env : EnvOutcome) :
    ∀ x ∈ (processOne plans i env).createCalls, x = i := by
  rcases processOne_cases plans i env with hn | ⟨p, st, mir, inf, hp, hd, he, _, _, _⟩
  · rw [hn]; intro x hx; exact absurd hx (List.not_mem_nil x)
  · rw [he, stepFinish_createCalls]; intro x hx; simpa using hx

theorem processOne_createCalls_notDone (plans : List RepoPlan) (i : Nat)
    (env : EnvOutcome) (p : RepoPlan) (h : plans[i]? = some p)
    (hd : p.status ≠ "done") : (processOne plans i env).createCalls = [i] := by
  cases hcr : env.create with
  | raised => simp [processOne, h, hd, hcr, stepFinish]
  | createdNew =>
    cases hm : env.mirrorOk <;> simp [processOne, h, hd, hcr, hm, stepFinish]
  | alreadyExists =>
    cases hinfo : env.infoEmpty with
    | none => simp [processOne, h, hd, hcr, hinfo, stepFinish]
    | some empt =>
      cases empt <;> cases hpa : env.proceedAnswer <;> cases hm : env.mirrorOk <;>
        simp [processOne, h, hd, hcr, hinfo, hpa, hm, stepFinish]

theorem migrateLoop_nil (plans : List RepoPlan) (i : Nat) :
    migrateLoop plans [] i = ⟨plans, [], [], [], []⟩ := rfl

theorem migrateLoop_cons (plans : List RepoPlan) (env : EnvOutcome)
    (rest : List EnvOutcome) (i : Nat) :
    migrateLoop plans (env :: rest) i =
      ⟨(migrateLoop (processOne plans i env).plans rest (i + 1)).plans,
       (processOne plans i env).saves ++
         (migrateLoop (processOne plans i env).plans rest (i + 1)).saves,
       (processOne plans i env).mirrored ++
         (migrateLoop (processOne plans i env).plans rest (i + 1)).mirrored,
       (processOne plans i env).infoCalls ++
         (migrateLoop (processOne plans i env).plans rest (i + 1)).infoCalls,
       (processOne plans i env).createCalls ++
         (migrateLoop (processOne plans i env).plans rest (i + 1)).createCalls⟩ := rfl

theorem migrateLoop_length (envs : List EnvOutcome) :
    ∀ (plans : List RepoPlan) (i : Nat),
      (migrateLoop plans envs i).plans.length = plans.length := by
  induction envs with
  | nil => intro plans i; rfl
  | cons env rest ih =>
    intro plans i
    rw [migrateLoop_cons]
    exact (ih _ _).trans (processOne_length plans i env)

theorem migrateLoop_mapKey (envs : List EnvOutcome) :
    ∀ (plans : List RepoPlan) (i : Nat),
      (migrateLoop plans envs i).plans.map planKey = plans.map planKey := by
  induction envs with
  | nil => intro plans i; rfl
  | cons env rest ih =>
    intro plans i
    rw [migrateLoop_cons]
    exact (ih _ _).trans (processOne_mapKey plans i env)

theorem migrateLoop_getq_lt (envs : List EnvOutcome) :
    ∀ (plans : List RepoPlan) (i t : Nat), t < i →
      (migrateLoop plans envs i).plans[t]? = plans[t]? := by
  induction envs with
  | nil => intro plans i t _; rfl
  | cons env rest ih =>
    intro plans i t ht
    rw [migrateLoop_cons]
    rw [ih _ _ _ (Nat.lt_succ_of_lt ht)]
    exact processOne_getq_ne plans i env t (Nat.ne_of_lt ht)

/-- Every ledger snapshot persisted by one iteration is `save_state` of a
plans list that differs from the input only at index `i` and only in a
status. -/
theorem processOne_saves_char (plans : List RepoPlan) (i : Nat) (env : EnvOutcome) :
    ∀ L ∈ (processOne plans i env).saves, ∃ plansN,
      L = save_state plansN ∧ (∀ j, j ≠ i → plansN[j]? = plans[j]?) ∧
      plansN.map planKey = plans.map planKey := by
  rcases processOne_cases plans i env with hn | ⟨p, st, mir, inf, hp, hd, he, _, _, _⟩
  · rw [hn]; intro L hL; exact absurd hL (List.not_mem_nil L)
  · rw [he, stepFinish_saves]
    intro L hL
    rcases List.mem_pair.mp hL with hL1 | hL2
    · refine ⟨plans.set i { p with status := "in_progress" }, hL1, ?_, ?_⟩
      · intro j hj; exact List.getElem?_set_ne (Ne.symm hj)
      · exact map_set_same planKey plans i p _ hp (planKey_status p _)
    · refine ⟨plans.set i { p with status := st }, hL2, ?_, ?_⟩
      · intro j hj; exact List.getElem?_set_ne (Ne.symm hj)
      · exact map_set_same planKey plans i p _ hp (planKey_status p _)

/-- Key membership in every persisted snapshot is exactly key membership in
the current run's plans. -/
theorem migrateLoop_saves_keys (envs : List EnvOutcome) :
    ∀ (plans : List RepoPlan) (i : Nat) (k : String),
      ∀ L ∈ (migrateLoop plans envs i).saves,
        ((lookupLedger L k).isSome ↔ k ∈ plans.map planKey) := by
  induction envs with
  | nil => intro plans i k L hL; exact absurd hL (List.not_mem_nil L)
  | cons env rest ih =>
    intro plans i k L hL
    rw [migrateLoop_cons] at hL
    rcases List.mem_append.mp hL with hL | hL
    · obtain ⟨plansN, hLN, _, hkeys⟩ := processOne_saves_char plans i env L hL
      rw [hLN, lookup_save_state_isSome, hkeys]
    · have := ih (processOne plans i env).plans (i + 1) k L hL
      rwa [processOne_mapKey plans i env] at this

/-- A plan already `done` is skipped: untouched in the final plans, never
mirrored, never the subject of a create or info call, and every snapshot
persisted during the run still carries its `done` entry. -/
theorem migrateLoop_done (envs : List EnvOutcome) :
    ∀ (plans : List RepoPlan) (i t : Nat) (p : RepoPlan), plans[t]? = some p →
      p.status = "done" →
      ((migrateLoop plans envs i).plans[t]? = some p) ∧
      (t ∉ (migrateLoop plans envs i).mirrored) ∧
      (t ∉ (migrateLoop plans envs i).infoCalls) ∧
      (t ∉ (migrateLoop plans envs i).createCalls) ∧
      ((plans.map planKey).Nodup →
        ∀ L ∈ (migrateLoop plans envs i).saves,
          lookupLedger L (planKey p) = some (planEntry p)) := by
  induction envs with
  | nil =>
    intro plans i t p hp hd
    exact ⟨hp, List.not_mem_nil t, List.not_mem_nil t, List.not_mem_nil t,
      fun _ L hL => absurd hL (List.not_mem_nil L)⟩
  | cons env rest ih =>
    intro plans i t p hp hd
    have haget : (processOne plans i env).plans[t]? = some p := by
      by_cases hti : t = i
      · subst hti
        rw [processOne_done plans t env p hp hd]
        exact hp
      · rw [processOne_getq_ne plans i env t hti]; exact hp
    obtain ⟨h1, h2, h3, h4, h5⟩ :=
      ih (processOne plans i env).plans (i + 1) t p haget hd
    rw [migrateLoop_cons]
    refine ⟨h1, ?_, ?_, ?_, ?_⟩
    · intro hmem
      rcases List.mem_append.mp hmem with hm | hm
      · by_cases hti : t = i
        · subst hti
          rw [processOne_done plans t env p hp hd] at hm
          exact absurd hm (List.not_mem_nil t)
        · exact hti (processOne_mirrored_eq plans i env t hm)
      · exact h2 hm
    · intro hmem
      rcases List.mem_append.mp hmem with hm | hm
      · by_cases hti : t = i
        · subst hti
          rw [processOne_done plans t env p hp hd] at hm
          exact absurd hm (List.not_mem_nil t)
        · exact hti (processOne_infoCalls_eq plans i env t hm)
      · exact h3 hm
    · intro hmem
      rcases List.mem_append.mp hmem with hm | hm
      · by_cases hti : t = i
        · subst hti
          rw [processOne_done plans t env p hp hd] at hm
          exact absurd hm (List.not_mem_nil t)
        · exact hti (processOne_createCalls_eq plans i env t hm)
      · exact h4 hm
    · intro hnd L hL
      rcases List.mem_append.mp hL with hm | hm
      · by_cases hti : t = i
        · subst hti
          rw [processOne_done plans t env p hp hd] at hm
          exact absurd hm (List.not_mem_nil L)
        · obtain ⟨plansN, hLN, hsame, hkeys⟩ :=
            processOne_saves_char plans i env L hm
          have hpt : plansN[t]? = some p := (hsame t hti).trans hp
          rw [hLN]
          exact lookup_save_state_nodup plansN t p hpt (by rwa [hkeys])
      · exact h5 (by rwa [processOne_mapKey plans i env]) L hm

/-- A raising iteration demotes its plan to `pending` in the final plans and
persists a snapshot carrying the `pending` entry. -/
theorem migrateLoop_raised (envs : List EnvOutcome) :
    ∀ (plans : List RepoPlan) (i j : Nat) (env : EnvOutcome) (p : RepoPlan),
      envs[j]? = some env → plans[i + j]? = some p → p.status ≠ "done" →
      tryRaised env = true →
      ((migrateLoop plans envs i).plans[i + j]? = some { p with status := "pending" }) ∧
      ((plans.map planKey).Nodup →
        ∃ L ∈ (migrateLoop plans envs i).saves,
          lookupLedger L (planKey p) =
            some ⟨"pending", p.target_owner, p.target_name⟩) := by
  induction envs with
  | nil => intro plans i j env p he _ _ _; simp at he
  | cons env0 rest ih =>
    intro plans i j env p he hp hd hr
    cases j with
    | zero =>
      simp only [List.getElem?_cons_zero, Option.some.injEq] at he
      subst he
      rw [Nat.add_zero] at hp ⊢
      obtain ⟨mir, inf, hstep⟩ := processOne_raised plans i env0 p hp hd hr
      have hlt : i < plans.length := by
        rcases List.getElem?_eq_some_iff.mp hp with ⟨hl, _⟩
        exact hl
      have haplans : (processOne plans i env0).plans =
          plans.set i { p with status := "pending" } := by
        rw [hstep, stepFinish_plans]
      constructor
      · rw [migrateLoop_cons,
          migrateLoop_getq_lt rest _ (i + 1) i (Nat.lt_succ_self i), haplans,
          List.getElem?_set_self hlt]
      · intro hnd
        refine ⟨save_state (plans.set i { p with status := "pending" }), ?_, ?_⟩
        · rw [migrateLoop_cons]
          apply List.mem_append_left
          rw [hstep, stepFinish_saves]
          exact List.mem_pair.mpr (Or.inr rfl)
        · have hpt : (plans.set i { p with status := "pending" })[i]? =
              some { p with status := "pending" } :=
            List.getElem?_set_self hlt
          have hkeys : (plans.set i { p with status := "pending" }).map planKey =
              plans.map planKey :=
            map_set_same planKey plans i p _ hp (planKey_status p _)
          exact lookup_save_state_nodup _ i _ hpt (by rwa [hkeys])
    | succ j =>
      simp only [List.getElem?_cons_succ] at he
      have hadd : i + (j + 1) = (i + 1) + j := by omega
      have hget : (processOne plans i env0).plans[(i + 1) + j]? = some p := by
        rw [← hadd, processOne_getq_ne plans i env0 _ (by omega)]
        exact hp
      obtain ⟨ih1, ih2⟩ :=
        ih (processOne plans i env0).plans (i + 1) j env p he hget hd hr
      constructor
      · rw [migrateLoop_cons, hadd]
        exact ih1
      · intro hnd
        obtain ⟨L, hLmem, hLlook⟩ := ih2 (by rwa [processOne_mapKey plans i env0])
        refine ⟨L, ?_, hLlook⟩
        rw [migrateLoop_cons]
        exact List.mem_append_right _ hLmem

/-- Every selected, not-yet-done plan is reached by the loop: its create
call happens no matter what the other iterations' outcomes were. -/
theorem migrateLoop_processes (envs : List EnvOutcome) :
    ∀ (plans : List RepoPlan) (i j : Nat) (env : EnvOutcome) (p : RepoPlan),
      envs[j]? = some env → plans[i + j]? = some p → p.status ≠ "done" →
      (i + j) ∈ (migrateLoop plans envs i).createCalls := by
  induction envs with
  | nil => intro plans i j env p he _ _; simp at he
  | cons env0 rest ih =>
    intro plans i j env p he hp hd
    cases j with
    | zero =>
      rw [migrateLoop_cons]
      apply List.mem_append_left
      rw [Nat.add_zero] at hp ⊢
      rw [processOne_createCalls_notDone plans i env0 p hp hd]
      exact List.mem_singleton.mpr rfl
    | succ j =>
      simp only [List.getElem?_cons_succ] at he
      have hadd : i + (j + 1) = (i + 1) + j := by omega
      have hget : (processOne plans i env0).plans[(i + 1) + j]? = some p := by
        rw [← hadd, processOne_getq_ne plans i env0 _ (by omega)]
        exact hp
      rw [migrateLoop_cons, hadd]
      exact List.mem_append_right _
        (ih (processOne plans i env0).plans (i + 1) j env p he hget hd)

/-! ## Claims C2, C4, C5 -/

/-- C2, as stated, is false: `save_state` writes a fresh dict built from the
current run's plans only, so a pre-existing ledger key whose repository is
not among the current plans is dropped by the very first save.  Here the
prior ledger holds `a/b`, the run's single plan is for `c/d`, and the saved
ledger no longer contains `a/b`. -/
theorem c2_counterexample :
    (lookupLedger [("a/b", (⟨"done", "o", "n"⟩ : StateEntry))] "a/b").isSome = true ∧
    lookupLedger (save_state [⟨⟨"c", "d", "d", "h", "w"⟩, "o2", "n2", "pending"⟩]) "a/b" =
      none := by
  decide

/-- C2 (amended): a key is present in the persisted mapping after a save —
including every save performed during a run of the migration loop — exactly
when it is the source key of one of the current run's plans; entries for
repositories not in the current plan list are dropped, while keys of the
plan list are never deleted by any save of the run. -/
theorem c2_saved_keys (plans : List RepoPlan) (envs : List EnvOutcome) (k : String) :
    ((lookupLedger (save_state plans) k).isSome ↔ k ∈ plans.map planKey) ∧
    (∀ L ∈ (migrate plans envs).saves,
      ((lookupLedger L k).isSome ↔ k ∈ plans.map planKey)) :=
  ⟨lookup_save_state_isSome plans k,
   fun L hL => migrateLoop_saves_keys envs plans 0 k L hL⟩

/-- Witness for `c2_saved_keys` at a concrete run: the first snapshot saved
by a run over the single `c/d` plan (whose creation raises) contains `c/d`. -/
theorem c2_saved_keys_witness :
    ([("w/c", (⟨"in_progress", "o", "c"⟩ : StateEntry))] ∈
      (migrate [wPlanC] [wEnvRaise]).saves) ∧
    ((lookupLedger [("w/c", (⟨"in_progress", "o", "c"⟩ : StateEntry))] "w/c").isSome ↔
      "w/c" ∈ [wPlanC].map planKey) :=
  ⟨by decide, (c2_saved_keys [wPlanC] [wEnvRaise] "w/c").2 _ (by decide)⟩

/-- C4: a plan whose status is `done` at the start of the loop is skipped
entirely: it is untouched in the final plans (still `done`), `mirror_repo`
is never invoked for it, neither are the GitHub create/info calls, and every
ledger snapshot persisted during the run still maps its key to its unchanged
`done` record. -/
theorem c4_done_skipped (plans : List RepoPlan) (envs : List EnvOutcome) (i : Nat)
    (p : RepoPlan) (hp : plans[i]? = some p) (hd : p.status = "done") :
    ((migrate plans envs).plans[i]? = some p) ∧
    (i ∉ (migrate plans envs).mirrored) ∧
    (i ∉ (migrate plans envs).infoCalls) ∧
    (i ∉ (migrate plans envs).createCalls) ∧
    ((plans.map planKey).Nodup →
      ∀ L ∈ (migrate plans envs).saves,
        lookupLedger L (planKey p) = some (planEntry p)) :=
  migrateLoop_done envs plans 0 i p hp hd

/-- Witness for `c4_done_skipped`: a two-plan run whose first plan is
already `done`. -/
theorem c4_done_skipped_witness :
    ([wPlanDone, wPlanB][0]? = some wPlanDone) ∧ (wPlanDone.status = "done") ∧
    (((migrate [wPlanDone, wPlanB] [wEnvOk, wEnvOk]).plans[0]? = some wPlanDone) ∧
     (0 ∉ (migrate [wPlanDone, wPlanB] [wEnvOk, wEnvOk]).mirrored) ∧
     (0 ∉ (migrate [wPlanDone, wPlanB] [wEnvOk, wEnvOk]).infoCalls) ∧
     (0 ∉ (migrate [wPlanDone, wPlanB] [wEnvOk, wEnvOk]).createCalls) ∧
     (([wPlanDone, wPlanB].map planKey).Nodup →
       ∀ L ∈ (migrate [wPlanDone, wPlanB] [wEnvOk, wEnvOk]).saves,
         lookupLedger L (planKey wPlanDone) = some (planEntry wPlanDone))) :=
  ⟨by decide, by decide,
   c4_done_skipped [wPlanDone, wPlanB] [wEnvOk, wEnvOk] 0 wPlanDone (by decide) (by decide)⟩

/-- C5: if the try block of an iteration raises (during repository creation,
the info fetch for an existing repository, or mirroring), the repository's
plan ends the run as `pending` (not `in_progress`), a snapshot carrying the
`pending` entry is persisted, and the loop is not aborted: the final plans
list is complete and every other selected, not-yet-done plan still gets its
create call. -/
theorem c5_failure_isolated (plans : List RepoPlan) (envs : List EnvOutcome)
    (j : Nat) (env : EnvOutcome) (p : RepoPlan) (he : envs[j]? = some env)
    (hp : plans[j]? = some p) (hd : p.status ≠ "done")
    (hr : tryRaised env = true) :
    ((migrate plans envs).plans[j]? = some { p with status := "pending" }) ∧
    ((plans.map planKey).Nodup →
      ∃ L ∈ (migrate plans envs).saves,
        lookupLedger L (planKey p) =
          some ⟨"pending", p.target_owner, p.target_name⟩) ∧
    ((migrate plans envs).plans.length = plans.length) ∧
    (∀ j2 env2 p2, envs[j2]? = some env2 → plans[j2]? = some p2 →
      p2.status ≠ "done" → j2 ∈ (migrate plans envs).createCalls) := by
  have h1 := migrateLoop_raised envs plans 0 j env p he
    (by rw [Nat.zero_add]; exact hp) hd hr
  refine ⟨?_, h1.2, migrateLoop_length envs plans 0, ?_⟩
  · have := h1.1
    rwa [Nat.zero_add] at this
  · intro j2 env2 p2 he2 hp2 hd2
    have := migrateLoop_processes envs plans 0 j2 env2 p2 he2
      (by rw [Nat.zero_add]; exact hp2) hd2
    rwa [Nat.zero_add] at this

/-- Witness for `c5_failure_isolated`: a two-plan run whose first iteration
raises at repository creation and whose second succeeds. -/
theorem c5_failure_isolated_witness :
    ([wEnvRaise, wEnvOk][0]? = some wEnvRaise) ∧
    ([wPlanB, wPlanC][0]? = some wPlanB) ∧
    (wPlanB.status ≠ "done") ∧ (tryRaised wEnvRaise = true) ∧
    (((migrate [wPlanB, wPlanC] [wEnvRaise, wEnvOk]).plans[0]? =
        some { wPlanB with status := "pending" }) ∧
     (([wPlanB, wPlanC].map planKey).Nodup →
       ∃ L ∈ (migrate [wPlanB, wPlanC] [wEnvRaise, wEnvOk]).saves,
         lookupLedger L (planKey wPlanB) =
           some ⟨"pending", wPlanB.target_owner, wPlanB.target_name⟩) ∧
     ((migrate [wPlanB, wPlanC] [wEnvRaise, wEnvOk]).plans.length =
        [wPlanB, wPlanC].length) ∧
     (∀ j2 env2 p2, [wEnvRaise, wEnvOk][j2]? = some env2 →
        [wPlanB, wPlanC][j2]? = some p2 → p2.status ≠ "done" →
        j2 ∈ (migrate [wPlanB, wPlanC] [wEnvRaise, wEnvOk]).createCalls)) :=
  ⟨by decide, by decide, by decide, by decide,
   c5_failure_isolated [wPlanB, wPlanC] [wEnvRaise, wEnvOk] 0 wEnvRaise wPlanB
     (by decide) (by decide) (by decide) (by decide)⟩

/-! ## Update Planner lemmas and claims C1, C7, C10 -/

theorem mem_ou_build_updates (repos : List RepoObs) (state : Ledger)
    (d : String) (u : RepoUpdate) :
    u ∈ ou_build_updates repos state d ↔
      ∃ obs, obs ∈ repos ∧ ou_buildOne state d obs = some u :=
  List.mem_filterMap

/-- The produced record copies the observed origin and push URL, and its two
flags are exactly the source's truthiness-guarded comparison of the two. -/
theorem ou_buildOne_flags (state : Ledger) (d : String) (obs : RepoObs)
    (u : RepoUpdate) (h : ou_buildOne state d obs = some u) :
    u.current_pushurl = obs.pushurl ∧
    (u.current_pushurl = none →
      u.update_pushurl = false ∧ u.pushurl_conflict = false) ∧
    (∀ pu, u.current_pushurl = some pu → pu = "" →
      u.update_pushurl = false ∧ u.pushurl_conflict = false) ∧
    (∀ pu, u.current_pushurl = some pu → pu ≠ "" → pu = u.current_origin →
      u.update_pushurl = true ∧ u.pushurl_conflict = false) ∧
    (∀ pu, u.current_pushurl = some pu → pu ≠ "" → pu ≠ u.current_origin →
      u.update_pushurl = false ∧ u.pushurl_conflict = true) := by
  cases ho : obs.origin with
  | none => simp [ou_buildOne, ho] at h
  | some origin =>
    cases hp : parse_bitbucket_origin origin with
    | none => simp [ou_buildOne, ho, hp] at h
    | some pr =>
      obtain ⟨w, r⟩ := pr
      simp only [ou_buildOne, ho, hp, Option.some.injEq] at h
      subst h
      refine ⟨rfl, ?_, ?_, ?_, ?_⟩
      · intro hn
        simp only at hn
        simp [hn]
      · intro pu hpu hemp
        simp only at hpu
        simp [hpu, hemp]
      · intro pu hpu hemp heq
        simp only at hpu heq
        subst heq
        simp [hpu, hemp]
      · intro pu hpu hemp hne
        simp only at hpu hne
        simp [hpu, hemp, hne]

/-- C10: for every RepoUpdate produced by the planner, `update_pushurl` and
`pushurl_conflict` are never both true, and when no separate push URL was
read both flags are false. -/
theorem c10_flags_exclusive (repos : List RepoObs) (state : Ledger) (d : String)
    (u : RepoUpdate) (hu : u ∈ ou_build_updates repos state d) :
    (¬(u.update_pushurl = true ∧ u.pushurl_conflict = true)) ∧
    (u.current_pushurl = none →
      u.update_pushurl = false ∧ u.pushurl_conflict = false) := by
  obtain ⟨obs, _, hb⟩ := (mem_ou_build_updates repos state d u).mp hu
  obtain ⟨hcp, h0, hE, hEq, hNe⟩ := ou_buildOne_flags state d obs u hb
  refine ⟨?_, h0⟩
  intro hboth
  cases hc : u.current_pushurl with
  | none =>
    have hz := h0 hc
    rw [hz.2] at hboth
    exact Bool.false_ne_true hboth.2
  | some pu =>
    by_cases hemp : pu = ""
    · have hz := hE pu hc hemp
      rw [hz.2] at hboth
      exact Bool.false_ne_true hboth.2
    · by_cases heq : pu = u.current_origin
      · have hz := hEq pu hc hemp heq
        rw [hz.2] at hboth
        exact Bool.false_ne_true hboth.2
      · have hz := hNe pu hc hemp heq
        rw [hz.1] at hboth
        exact Bool.false_ne_true hboth.1

/-- Witness for `c10_flags_exclusive` at a repository with no push URL. -/
theorem c10_flags_exclusive_witness :
    ((⟨"/r", "git@bitbucket.org:w/r", none, "w/r", "d", "r",
       "git@github.com:d/r.git", false, false, false⟩ : RepoUpdate) ∈
      ou_build_updates [⟨"/r", some "git@bitbucket.org:w/r", none⟩] [] "d") ∧
    ((¬(false = true ∧ false = true)) ∧
     ((none : Option String) = none → false = false ∧ false = false)) :=
  ⟨by decide,
   c10_flags_exclusive [⟨"/r", some "git@bitbucket.org:w/r", none⟩] [] "d"
     ⟨"/r", "git@bitbucket.org:w/r", none, "w/r", "d", "r",
      "git@github.com:d/r.git", false, false, false⟩ (by decide)⟩

/-- C1, as stated, is false: when no separate push URL was read
(`run_git_optional` returned `None`), the planner leaves `update_pushurl`
false — the claimed `update_pushurl = true` only happens when a push URL was
read and equals the origin. -/
theorem c1_counterexample :
    (ou_build_updates [⟨"/r1", some "https://bitbucket.org/w/r.git", none⟩] [] "d").map
      (fun u => (u.current_pushurl, u.update_pushurl, u.pushurl_conflict)) =
      [(none, false, false)] := by
  decide

/-- C1 (amended): if a push URL was read and it equals the current origin,
`update_pushurl = true` and `pushurl_conflict = false`; if a push URL was
read and differs from the origin, `pushurl_conflict = true` and
`update_pushurl = false`; if no push URL was read (or it was read as the
empty string, which Python treats as falsy) both flags are false. -/
theorem c1_pushurl_policy (repos : List RepoObs) (state : Ledger) (d : String)
    (u : RepoUpdate) (hu : u ∈ ou_build_updates repos state d) :
    (u.current_pushurl = none →
      u.update_pushurl = false ∧ u.pushurl_conflict = false) ∧
    (∀ pu, u.current_pushurl = some pu → pu = "" →
      u.update_pushurl = false ∧ u.pushurl_conflict = false) ∧
    (∀ pu, u.current_pushurl = some pu → pu ≠ "" →
      ((pu = u.current_origin →
          u.update_pushurl = true ∧ u.pushurl_conflict = false) ∧
       (pu ≠ u.current_origin →
          u.update_pushurl = false ∧ u.pushurl_conflict = true))) := by
  obtain ⟨obs, _, hb⟩ := (mem_ou_build_updates repos state d u).mp hu
  obtain ⟨hcp, h0, hE, hEq, hNe⟩ := ou_buildOne_flags state d obs u hb
  exact ⟨h0, hE, fun pu hpu hemp =>
    ⟨fun heq => hEq pu hpu hemp heq, fun hne => hNe pu hpu hemp hne⟩⟩

/-- Witness for `c1_pushurl_policy` at a repository with a diverging push
URL. -/
theorem c1_pushurl_policy_witness :
    ((⟨"/r3", "git@bitbucket.org:w/r", some "git@bitbucket.org:w/r-fork", "w/r",
       "d", "r", "git@github.com:d/r.git", false, false, true⟩ : RepoUpdate) ∈
      ou_build_updates
        [⟨"/r3", some "git@bitbucket.org:w/r", some "git@bitbucket.org:w/r-fork"⟩]
        [] "d") ∧
    (∀ pu, (some "git@bitbucket.org:w/r-fork" : Option String) = some pu → pu ≠ "" →
      ((pu = "git@bitbucket.org:w/r" → false = true ∧ true = false) ∧
       (pu ≠ "git@bitbucket.org:w/r" → false = false ∧ true = true))) :=
  ⟨by decide,
   (c1_pushurl_policy
     [⟨"/r3", some "git@bitbucket.org:w/r", some "git@bitbucket.org:w/r-fork"⟩]
     [] "d"
     ⟨"/r3", "git@bitbucket.org:w/r", some "git@bitbucket.org:w/r-fork", "w/r",
      "d", "r", "git@github.com:d/r.git", false, false, true⟩ (by decide)).2.2⟩

/-- C7: for every kept repository the planner resolves the target from a
ledger record when one exists for `workspace/slug` (each field used only
when non-empty, `from_state = true`), falls back to `(default_owner, slug)`
otherwise, and always rewrites the origin to the SSH GitHub form. -/
theorem c7_target_resolution (state : Ledger) (d : String) (obs : RepoObs)
    (origin w r : String) (u : RepoUpdate) (ho : obs.origin = some origin)
    (hp : parse_bitbucket_origin origin = some (w, r))
    (hu : ou_buildOne state d obs = some u) :
    u.source_key = w ++ "/" ++ r ∧
    u.new_origin =
      "git@github.com:" ++ u.target_owner ++ "/" ++ u.target_name ++ ".git" ∧
    (match lookupLedger state (w ++ "/" ++ r) with
     | none => u.target_owner = d ∧ u.target_name = r ∧ u.from_state = false
     | some e =>
       u.from_state = true ∧
       u.target_owner = (if e.target_owner ≠ "" then e.target_owner else d) ∧
       u.target_name = (if e.target_name ≠ "" then e.target_name else r)) := by
  simp only [ou_buildOne, ho, hp, Option.some.injEq] at hu
  subst hu
  cases hl : lookupLedger state (w ++ "/" ++ r) with
  | none => simp [hl]
  | some e => simp [hl]

/-- Witness for `c7_target_resolution` with a ledger record whose owner and
name are both non-empty. -/
theorem c7_target_resolution_witness :
    ((⟨"/r", some "https://bitbucket.org/w/r", none⟩ : RepoObs).origin =
      some "https://bitbucket.org/w/r") ∧
    (parse_bitbucket_origin "https://bitbucket.org/w/r" = some ("w", "r")) ∧
    (ou_buildOne [("w/r", ⟨"done", "O2", "N2"⟩)] "d"
        ⟨"/r", some "https://bitbucket.org/w/r", none⟩ =
      some ⟨"/r", "https://bitbucket.org/w/r", none, "w/r", "O2", "N2",
        "git@github.com:O2/N2.git", true, false, false⟩) ∧
    (("w/r" : String) = "w" ++ "/" ++ "r" ∧
     ("git@github.com:O2/N2.git" : String) =
       "git@github.com:" ++ "O2" ++ "/" ++ "N2" ++ ".git" ∧
     (match lookupLedger [("w/r", (⟨"done", "O2", "N2"⟩ : StateEntry))] ("w" ++ "/" ++ "r") with
      | none => ("O2" : String) = "d" ∧ ("N2" : String) = "r" ∧ true = false
      | some e =>
        true = true ∧
        ("O2" : String) = (if e.target_owner ≠ "" then e.target_owner else "d") ∧
        ("N2" : String) = (if e.target_name ≠ "" then e.target_name else "r"))) :=
  ⟨rfl, by decide, by decide,
   c7_target_resolution [("w/r", ⟨"done", "O2", "N2"⟩)] "d"
     ⟨"/r", some "https://bitbucket.org/w/r", none⟩ "https://bitbucket.org/w/r" "w" "r"
     ⟨"/r", "https://bitbucket.org/w/r", none, "w/r", "O2", "N2",
       "git@github.com:O2/N2.git", true, false, false⟩ rfl (by decide) (by decide)⟩

/-! ## Claim C8 -/

/-- C8: applying loaded state onto fresh plans overwrites each matched
plan's status with the ledger's, overwrites the target only when the
record's owner and name are both non-empty, and leaves unmatched plans
unchanged. -/
theorem c8_state_merge (state : Ledger) (plans : List RepoPlan) (i : Nat)
    (p : RepoPlan) (hp : plans[i]? = some p) :
    ∃ q, (apply_existing_state state plans)[i]? = some q ∧ q.source = p.source ∧
      (match lookupLedger state (planKey p) with
       | none => q = p
       | some e =>
         q.status = e.status ∧
         ((e.target_owner ≠ "" ∧ e.target_name ≠ "") →
           q.target_owner = e.target_owner ∧ q.target_name = e.target_name) ∧
         (¬(e.target_owner ≠ "" ∧ e.target_name ≠ "") →
           q.target_owner = p.target_owner ∧ q.target_name = p.target_name)) := by
  by_cases hs : state = []
  · subst hs
    refine ⟨p, ?_, rfl, ?_⟩
    · simpa [apply_existing_state] using hp
    · simp [lookupLedger]
  · cases hl : lookupLedger state (planKey p) with
    | none =>
      refine ⟨p, ?_, rfl, by simp [hl]⟩
      simp [apply_existing_state, hs, List.getElem?_map, hp, hl]
    | some e =>
      by_cases hb : e.target_owner ≠ "" ∧ e.target_name ≠ ""
      · refine ⟨{ p with status := e.status, target_owner := e.target_owner, target_name := e.target_name }, ?_, rfl, ?_⟩
        · simp [apply_existing_state, hs, List.getElem?_map, hp, hl, hb]
        · simp [hl, hb]
      · refine ⟨{ p with status := e.status }, ?_, rfl, ?_⟩
        · simp [apply_existing_state, hs, List.getElem?_map, hp, hl, hb]
        · simp [hl, hb]

/-- Witness for `c8_state_merge`: a plan whose ledger record has both target
fields non-empty. -/
theorem c8_state_merge_witness :
    ([wPlanB][0]? = some wPlanB) ∧
    (∃ q, (apply_existing_state [("w/b", ⟨"done", "O2", "N2"⟩)] [wPlanB])[0]? = some q ∧
      q.source = wPlanB.source ∧
      (match lookupLedger [("w/b", (⟨"done", "O2", "N2"⟩ : StateEntry))] (planKey wPlanB) with
       | none => q = wPlanB
       | some e =>
         q.status = e.status ∧
         ((e.target_owner ≠ "" ∧ e.target_name ≠ "") →
           q.target_owner = e.target_owner ∧ q.target_name = e.target_name) ∧
         (¬(e.target_owner ≠ "" ∧ e.target_name ≠ "") →
           q.target_owner = wPlanB.target_owner ∧
           q.target_name = wPlanB.target_name))) :=
  ⟨by decide, c8_state_merge [("w/b", ⟨"done", "O2", "N2"⟩)] [wPlanB] 0 wPlanB (by decide)⟩

/-! ## Origin Parser lemmas (claim C6) -/

theorem slugLoop_sound (t : List Char) :
    ∀ acc s, slugLoop acc t = some s →
      ∃ mid suf nl, s = acc.reverse ++ mid ∧ t = mid ++ suf ++ nl ∧ '/' ∉ mid ∧
        (suf = [] ∨ suf = gitChars) ∧ (nl = [] ∨ nl = ['\n']) := by
  induction t with
  | nil =>
    intro acc s h
    simp only [slugLoop, Option.some.injEq] at h
    exact ⟨[], [], [], by simp [← h], by simp, by simp, Or.inl rfl, Or.inl rfl⟩
  | cons c t ih =>
    intro acc s h
    simp only [slugLoop] at h
    split at h
    case isTrue h1 =>
      simp only [Option.some.injEq] at h
      refine ⟨[], gitChars, (c :: t).drop 4, by simp [← h], ?_, by simp,
        Or.inr rfl, h1.2⟩
      rw [List.nil_append, ← h1.1, List.take_append_drop]
    case isFalse h1 =>
      split at h
      case isTrue h2 =>
        simp only [Option.some.injEq] at h
        exact ⟨[], [], ['\n'], by simp [← h], by simp [h2], by simp,
          Or.inl rfl, Or.inr rfl⟩
      case isFalse h2 =>
        split at h
        case isTrue h3 => exact absurd h (by simp)
        case isFalse h3 =>
          obtain ⟨mid, suf, nl, hs, ht, hmid, hsuf, hnl⟩ := ih (c :: acc) s h
          refine ⟨c :: mid, suf, nl, ?_, ?_, ?_, hsuf, hnl⟩
          · simp [hs]
          · simp [ht]
          · intro hmem
            rcases List.mem_cons.mp hmem with h4 | h4
            · exact h3 h4.symm
            · exact hmid h4

theorem slugLoop_isSome (mid : List Char) :
    ∀ (suf nl acc : List Char), '/' ∉ mid →
      (suf = [] ∨ suf = gitChars) → (nl = [] ∨ nl = ['\n']) →
      (slugLoop acc (mid ++ suf ++ nl)).isSome := by
  induction mid with
  | nil =>
    intro suf nl acc _ hsuf hnl
    rcases hsuf with hs | hs <;> rcases hnl with hn | hn <;> subst hs <;> subst hn <;>
      simp [slugLoop, gitChars]
  | cons c mid ih =>
    intro suf nl acc hm hsuf hnl
    have hc : c ≠ '/' := fun hc => hm (hc ▸ List.mem_cons_self c mid)
    rw [show (c :: mid) ++ suf ++ nl = c :: (mid ++ suf ++ nl) from by simp]
    simp only [slugLoop, if_neg hc]
    split
    · simp
    · split
      · simp
      · exact ih suf nl (c :: acc) (fun hmem => hm (List.mem_cons_of_mem c hmem))
          hsuf hnl

theorem matchSlug_sound (t s : List Char) (h : matchSlug t = some s) :
    ∃ suf nl, t = s ++ suf ++ nl ∧ s ≠ [] ∧ '/' ∉ s ∧
      (suf = [] ∨ suf = gitChars) ∧ (nl = [] ∨ nl = ['\n']) := by
  cases t with
  | nil => simp [matchSlug] at h
  | cons c t0 =>
    simp only [matchSlug] at h
    split at h
    case isTrue h1 => exact absurd h (by simp)
    case isFalse h1 =>
      obtain ⟨mid, suf, nl, hs, ht, hmid, hsuf, hnl⟩ := slugLoop_sound t0 [c] s h
      refine ⟨suf, nl, ?_, ?_, ?_, hsuf, hnl⟩
      · simp only [hs, List.reverse_cons, List.reverse_nil, List.nil_append]
        simp [ht]
      · simp [hs]
      · intro hmem
        rw [hs] at hmem
        simp only [List.reverse_cons, List.reverse_nil, List.nil_append] at hmem
        rcases List.mem_cons.mp hmem with h4 | h4
        · exact h1 h4.symm
        · exact hmid h4

theorem matchSlug_isSome (s suf nl : List Char) (h1 : s ≠ []) (h2 : '/' ∉ s)
    (hsuf : suf = [] ∨ suf = gitChars) (hnl : nl = [] ∨ nl = ['\n']) :
    (matchSlug (s ++ suf ++ nl)).isSome := by
  cases s with
  | nil => exact absurd rfl h1
  | cons c s0 =>
    have hc : c ≠ '/' := fun hc => h2 (hc ▸ List.mem_cons_self c s0)
    rw [show (c :: s0) ++ suf ++ nl = c :: (s0 ++ suf ++ nl) from by simp]
    simp only [matchSlug, if_neg hc]
    exact slugLoop_isSome s0 suf nl [c] (fun hmem => h2 (List.mem_cons_of_mem c hmem))
      hsuf hnl

theorem wsLoop_sound (v : List Char) :
    ∀ acc w s, wsLoop acc v = some (w, s) →
      ∃ pre rest, v = pre ++ '/' :: rest ∧ '/' ∉ pre ∧ w = acc.reverse ++ pre ∧
        w ≠ [] ∧ matchSlug rest = some s := by
  induction v with
  | nil => intro acc w s h; simp [wsLoop] at h
  | cons c v0 ih =>
    intro acc w s h
    simp only [wsLoop] at h
    split at h
    case isTrue hcsl =>
      split at h
      case isTrue ha => exact absurd h (by simp)
      case isFalse ha =>
        cases hms : matchSlug v0 with
        | none => rw [hms] at h; exact absurd h (by simp)
        | some s0 =>
          rw [hms] at h
          simp only [Option.map_some', Option.some.injEq, Prod.mk.injEq] at h
          subst hcsl
          refine ⟨[], v0, by simp, by simp, by simp [← h.1], ?_, ?_⟩
          · rw [← h.1]
            simpa using fun hh => ha hh
          · rw [← h.2]
            exact hms
    case isFalse hcsl =>
      obtain ⟨pre, rest, hv, hpre, hw, hne, hm⟩ := ih (c :: acc) w s h
      refine ⟨c :: pre, rest, by simp [hv], ?_, by simp [hw], hne, hm⟩
      intro hmem
      rcases List.mem_cons.mp hmem with h1 | h1
      · exact hcsl h1.symm
      · exact hpre h1

theorem wsLoop_isSome (w : List Char) :
    ∀ (acc rest : List Char), '/' ∉ w → (acc = [] → w ≠ []) →
      (matchSlug rest).isSome → (wsLoop acc (w ++ '/' :: rest)).isSome := by
  induction w with
  | nil =>
    intro acc rest _ hne hm
    have hacc : ¬acc = [] := fun h => (hne h) rfl
    simp only [List.nil_append, wsLoop, if_pos rfl, if_neg hacc]
    obtain ⟨s, hs⟩ := Option.isSome_iff_exists.mp hm
    rw [hs]
    simp
  | cons c w0 ih =>
    intro acc rest hw hne hm
    have hc : c ≠ '/' := fun h => hw (h ▸ List.mem_cons_self c w0)
    rw [show (c :: w0) ++ '/' :: rest = c :: (w0 ++ '/' :: rest) from by simp]
    simp only [wsLoop, if_neg hc]
    exact ih (c :: acc) rest (fun hmem => hw (List.mem_cons_of_mem c hmem))
      (fun h => List.noConfusion h) hm

theorem matchWsSlug_sound (v w s : List Char) (h : matchWsSlug v = some (w, s)) :
    TailShape v w s := by
  obtain ⟨pre, rest, hv, hpre, hw, hne, hm⟩ := wsLoop_sound v [] w s h
  simp only [List.reverse_nil, List.nil_append] at hw
  subst hw
  obtain ⟨suf, nl, ht, hs0, hsl, hsuf, hnl⟩ := matchSlug_sound rest s hm
  exact ⟨suf, nl, by rw [hv, ht], hne, hpre, hs0, hsl, hsuf, hnl⟩

theorem matchWsSlug_isSome (v w r : List Char) (h : TailShape v w r) :
    (matchWsSlug v).isSome := by
  obtain ⟨suf, nl, hv, hw, hpw, hr, hpr, hsuf, hnl⟩ := h
  rw [matchWsSlug, hv]
  exact wsLoop_isSome w [] (r ++ suf ++ nl) hpw (fun _ => hw)
    (matchSlug_isSome r suf nl hr hpr hsuf hnl)

theorem splitAtAmp_sound (t : List Char) :
    ∀ c u, splitAtAmp t = some (c, u) → t = c ++ '@' :: u ∧ '@' ∉ c := by
  induction t with
  | nil => intro c u h; simp [splitAtAmp] at h
  | cons x t0 ih =>
    intro c u h
    simp only [splitAtAmp] at h
    split at h
    case isTrue hx =>
      simp only [Option.some.injEq, Prod.mk.injEq] at h
      subst hx
      rw [← h.1, ← h.2]
      exact ⟨by simp, by simp⟩
    case isFalse hx =>
      cases hs : splitAtAmp t0 with
      | none => rw [hs] at h; exact absurd h (by simp)
      | some p =>
        obtain ⟨c0, u0⟩ := p
        rw [hs] at h
        simp only [Option.map_some', Option.some.injEq, Prod.mk.injEq] at h
        obtain ⟨hs0, hs1⟩ := ih c0 u0 hs
        rw [← h.1, ← h.2]
        refine ⟨by simp [hs0], ?_⟩
        intro hmem
        rcases List.mem_cons.mp hmem with h1 | h1
        · exact hx h1.symm
        · exact hs1 h1

theorem splitAtAmp_eq (c : List Char) :
    ∀ u, '@' ∉ c → splitAtAmp (c ++ '@' :: u) = some (c, u) := by
  induction c with
  | nil => intro u _; simp [splitAtAmp]
  | cons x c0 ih =>
    intro u hno
    have hx : x ≠ '@' := fun h => hno (h ▸ List.mem_cons_self x c0)
    rw [show (x :: c0) ++ '@' :: u = x :: (c0 ++ '@' :: u) from by simp]
    simp only [splitAtAmp, if_neg hx,
      ih u (fun hmem => hno (List.mem_cons_of_mem x hmem))]
    simp

theorem matchHttps_sound (t w r : List Char) (h : matchHttps t = some (w, r)) :
    ∃ cred u, CredShape cred ∧ t = cred ++ (hostSlash ++ u) ∧ TailShape u w r := by
  cases hcase : httpsCred t with
  | some p =>
    have hval : matchHttps t = some p := by simp only [matchHttps, hcase]
    rw [hval] at h
    simp only [Option.some.injEq] at h
    subst h
    cases hsplit : splitAtAmp t with
    | none =>
      have : httpsCred t = none := by simp only [httpsCred, hsplit]
      rw [this] at hcase
      exact absurd hcase (by simp)
    | some cu =>
      obtain ⟨c, u⟩ := cu
      have hcval : httpsCred t =
          (if c = [] then none
           else if u.take 14 = hostSlash then matchWsSlug (u.drop 14) else none) := by
        simp only [httpsCred, hsplit]
      rw [hcval] at hcase
      split at hcase
      · exact absurd hcase (by simp)
      · rename_i hcne
        split at hcase
        · rename_i h14
          obtain ⟨ht, hno⟩ := splitAtAmp_sound t c u hsplit
          refine ⟨c ++ ['@'], u.drop 14, Or.inr ⟨c, hcne, hno, rfl⟩, ?_, ?_⟩
          · rw [ht]
            conv_lhs =>
              rw [show u = u.take 14 ++ u.drop 14 from (List.take_append_drop 14 u).symm]
            rw [h14]
            simp
          · exact matchWsSlug_sound _ _ _ hcase
        · exact absurd hcase (by simp)
  | none =>
    have hval : matchHttps t =
        (if t.take 14 = hostSlash then matchWsSlug (t.drop 14) else none) := by
      simp only [matchHttps, hcase]
    rw [hval] at h
    split at h
    · rename_i h14
      refine ⟨[], t.drop 14, Or.inl rfl, ?_, matchWsSlug_sound _ _ _ h⟩
      conv_lhs =>
        rw [show t = t.take 14 ++ t.drop 14 from (List.take_append_drop 14 t).symm]
      rw [h14]
      simp
    · exact absurd h (by simp)

theorem matchHttps_isSome (t w r cred u : List Char) (hcred : CredShape cred)
    (ht : t = cred ++ (hostSlash ++ u)) (hu : TailShape u w r) :
    (matchHttps t).isSome := by
  rw [matchHttps]
  cases hcase : httpsCred t with
  | some p => simp
  | none =>
    rcases hcred with hc | ⟨c, hcne, hcnot, hceq⟩
    · subst hc
      simp only [List.nil_append] at ht
      have h14 : t.take 14 = hostSlash := by
        rw [ht]
        exact List.take_left' (by decide)
      have hd : t.drop 14 = u := by
        rw [ht]
        exact List.drop_left' (by decide)
      rw [if_pos h14, hd]
      have hm := matchWsSlug_isSome u w r hu
      obtain ⟨p, hp⟩ := Option.isSome_iff_exists.mp hm
      rw [hp]
      simp
    · exfalso
      subst hceq
      have ht2 : t = c ++ '@' :: (hostSlash ++ u) := by
        rw [ht]
        simp
      have hsplit : splitAtAmp t = some (c, hostSlash ++ u) := by
        rw [ht2]
        exact splitAtAmp_eq c _ hcnot
      have hcval : httpsCred t = matchWsSlug u := by
        simp only [httpsCred, hsplit, if_neg hcne,
          if_pos (List.take_left' (show hostSlash.length = 14 from by decide)),
          List.drop_left' (show hostSlash.length = 14 from by decide)]
      rw [hcase] at hcval
      have hm := matchWsSlug_isSome u w r hu
      rw [← hcval] at hm
      simp at hm

theorem toList_asString (l : List Char) : (l.asString).toList = l := rfl

/-- Soundness: whatever pair the parser returns is a decomposition of the
input in one of the two claimed URL shapes. -/
theorem parse_sound (s w r : String) (h : parse_bitbucket_origin s = some (w, r)) :
    IsHttpsUrl s.toList w.toList r.toList ∨ IsSshUrl s.toList w.toList r.toList := by
  simp only [parse_bitbucket_origin] at h
  cases hhttps : (if s.toList.take 8 = httpsPre then matchHttps (s.toList.drop 8)
      else none) with
  | some p =>
    obtain ⟨lw, lr⟩ := p
    rw [hhttps] at h
    simp only [Option.some.injEq, Prod.mk.injEq] at h
    have h8 : s.toList.take 8 = httpsPre := by
      by_contra hc
      rw [if_neg hc] at hhttps
      exact Option.noConfusion hhttps
    rw [if_pos h8] at hhttps
    left
    obtain ⟨cred, u, hcred, ht, htail⟩ := matchHttps_sound _ lw lr hhttps
    refine ⟨cred, u, hcred, ?_, ?_⟩
    · conv_lhs => rw [← List.take_append_drop 8 s.toList]
      rw [h8, ht]
    · have hw : w.toList = lw := by rw [← h.1]; rfl
      have hr : r.toList = lr := by rw [← h.2]; rfl
      rwa [hw, hr]
  | none =>
    rw [hhttps] at h
    cases hssh : (if s.toList.take 18 = sshPre then matchWsSlug (s.toList.drop 18)
        else none) with
    | none => rw [hssh] at h; exact Option.noConfusion h
    | some p =>
      obtain ⟨lw, lr⟩ := p
      rw [hssh] at h
      simp only [Option.some.injEq, Prod.mk.injEq] at h
      have h18 : s.toList.take 18 = sshPre := by
        by_contra hc
        rw [if_neg hc] at hssh
        exact Option.noConfusion hssh
      rw [if_pos h18] at hssh
      right
      refine ⟨s.toList.drop 18, ?_, ?_⟩
      · conv_lhs => rw [← List.take_append_drop 18 s.toList]
        rw [h18]
      · have hw : w.toList = lw := by rw [← h.1]; rfl
        have hr : r.toList = lr := by rw [← h.2]; rfl
        rw [hw, hr]
        exact matchWsSlug_sound _ lw lr hssh

/-- Completeness: on any input of either claimed URL shape the parser
succeeds. -/
theorem parse_isSome (s : String) (w r : List Char)
    (h : IsHttpsUrl s.toList w r ∨ IsSshUrl s.toList w r) :
    (parse_bitbucket_origin s).isSome := by
  simp only [parse_bitbucket_origin]
  rcases h with ⟨cred, u, hcred, hv, htail⟩ | ⟨u, hv, htail⟩
  · have hv2 : s.toList = httpsPre ++ (cred ++ (hostSlash ++ u)) := hv
    have h8 : s.toList.take 8 = httpsPre := by
      rw [hv2]
      exact List.take_left' (by decide)
    have hdrop : s.toList.drop 8 = cred ++ (hostSlash ++ u) := by
      rw [hv2]
      exact List.drop_left' (by decide)
    rw [if_pos h8, hdrop]
    have hm := matchHttps_isSome (cred ++ (hostSlash ++ u)) w r cred u hcred rfl htail
    obtain ⟨p, hp⟩ := Option.isSome_iff_exists.mp hm
    obtain ⟨lw, lr⟩ := p
    rw [hp]
    simp
  · have h8 : ¬(s.toList.take 8 = httpsPre) := by
      rw [hv, List.take_append_of_le_length (by decide)]
      decide
    rw [if_neg h8]
    have h18 : s.toList.take 18 = sshPre := by
      rw [hv]
      exact List.take_left' (by decide)
    have hdrop : s.toList.drop 18 = u := by
      rw [hv]
      exact List.drop_left' (by decide)
    rw [if_pos h18, hdrop]
    have hm := matchWsSlug_isSome u w r htail
    obtain ⟨p, hp⟩ := Option.isSome_iff_exists.mp hm
    obtain ⟨lw, lr⟩ := p
    rw [hp]
    simp

/-! Exactness of the parser: which one of the possibly several shape
decompositions of an input the engine returns.  On `.../acme/widgets.git`
both `("acme", "widgets")` (suffix `.git`) and `("acme", "widgets.git")`
(empty suffix) are decompositions; the greedy `(\.git)?` tried before `$`
means the engine returns the one with the shortest slug.  The lemmas below
prove that all decompositions of an input agree on the workspace and that
the parser returns the (unique) minimal-slug one. -/

/-- Splitting a list at an occurrence of `ch` with a `ch`-free part before
it is unique: it is the split at the first occurrence. -/
theorem split_at_char_unique (ch : Char) :
    ∀ a b x y : List Char, a ++ ch :: x = b ++ ch :: y → ch ∉ a → ch ∉ b →
      a = b ∧ x = y := by
  intro a
  induction a with
  | nil =>
    intro b x y heq ha hb
    cases b with
    | nil =>
      simp only [List.nil_append, List.cons.injEq] at heq
      exact ⟨rfl, heq.2⟩
    | cons c b0 =>
      simp only [List.nil_append, List.cons_append, List.cons.injEq] at heq
      exact absurd (by rw [heq.1]; exact List.mem_cons_self c b0) hb
  | cons c a0 ih =>
    intro b x y heq ha hb
    cases b with
    | nil =>
      simp only [List.cons_append, List.nil_append, List.cons.injEq] at heq
      exact absurd (by rw [← heq.1]; exact List.mem_cons_self c a0) ha
    | cons d b0 =>
      simp only [List.cons_append, List.cons.injEq] at heq
      have ha0 : ch ∉ a0 := fun hm => ha (List.mem_cons_of_mem c hm)
      have hb0 : ch ∉ b0 := fun hm => hb (List.mem_cons_of_mem d hm)
      obtain ⟨h1, h2⟩ := ih b0 x y heq.2 ha0 hb0
      exact ⟨by rw [heq.1, h1], h2⟩

/-- The slug returned by `slugLoop` is minimal: it is no longer than the
slug of any decomposition of the remaining input into slug part, optional
`.git` suffix and optional newline.  (At every step the engine prefers
completing the match over growing the slug.) -/
theorem slugLoop_min (t : List Char) :
    ∀ acc s, slugLoop acc t = some s →
      ∀ mid suf nl, t = mid ++ suf ++ nl →
        (suf = [] ∨ suf = gitChars) → (nl = [] ∨ nl = ['\n']) →
        s.length ≤ acc.length + mid.length := by
  induction t with
  | nil =>
    intro acc s h mid suf nl ht hsuf hnl
    simp only [slugLoop, Option.some.injEq] at h
    rw [← h]
    simp only [List.length_reverse]
    omega
  | cons c t0 ih =>
    intro acc s h mid suf nl ht hsuf hnl
    simp only [slugLoop] at h
    split at h
    case isTrue h1 =>
      simp only [Option.some.injEq] at h
      rw [← h]
      simp only [List.length_reverse]
      omega
    case isFalse h1 =>
      split at h
      case isTrue h2 =>
        simp only [Option.some.injEq] at h
        rw [← h]
        simp only [List.length_reverse]
        omega
      case isFalse h2 =>
        split at h
        case isTrue h3 => exact absurd h (by simp)
        case isFalse h3 =>
          cases mid with
          | nil =>
            exfalso
            simp only [List.nil_append] at ht
            rcases hsuf with hs | hs <;> subst hs
            · rcases hnl with hn | hn <;> subst hn
              · simp at ht
              · simp only [List.nil_append] at ht
                exact h2 ht
            · rcases hnl with hn | hn <;> subst hn
              · simp only [List.append_nil] at ht
                exact h1 (by rw [ht]; decide)
              · exact h1 (by rw [ht]; decide)
          | cons c0 mid0 =>
            simp only [List.cons_append, List.cons.injEq] at ht
            have hstep := ih (c :: acc) s h mid0 suf nl ht.2 hsuf hnl
            simp only [List.length_cons] at hstep ⊢
            omega

/-- Minimality of `matchSlug`: its slug is no longer than the slug of any
decomposition of the input. -/
theorem matchSlug_min (z s : List Char) (h : matchSlug z = some s) :
    ∀ r suf nl, z = r ++ suf ++ nl → r ≠ [] →
      (suf = [] ∨ suf = gitChars) → (nl = [] ∨ nl = ['\n']) →
      s.length ≤ r.length := by
  intro r suf nl hz hr hsuf hnl
  cases z with
  | nil => simp [matchSlug] at h
  | cons c z0 =>
    simp only [matchSlug] at h
    split at h
    case isTrue h1 => exact absurd h (by simp)
    case isFalse h1 =>
      cases r with
      | nil => exact absurd rfl hr
      | cons c0 r0 =>
        simp only [List.cons_append, List.cons.injEq] at hz
        have hstep := slugLoop_min z0 [c] s h r0 suf nl hz.2 hsuf hnl
        simp only [List.length_cons, List.length_nil] at hstep ⊢
        omega

/-- The part of a tail after the workspace slash is `/`-free. -/
theorem slash_not_in_tail (r suf nl : List Char) (hr : '/' ∉ r)
    (hsuf : suf = [] ∨ suf = gitChars) (hnl : nl = [] ∨ nl = ['\n']) :
    '/' ∉ r ++ suf ++ nl := by
  intro hm
  rcases List.mem_append.mp hm with hm | hm
  · rcases List.mem_append.mp hm with hm | hm
    · exact hr hm
    · rcases hsuf with hs | hs <;> subst hs
      · simp at hm
      · exact absurd hm (by decide)
  · rcases hnl with hn | hn <;> subst hn
    · simp at hm
    · exact absurd hm (by decide)

/-- Exact soundness of `([^/]+)/([^/]+?)(\.git)?$`: the returned pair is a
decomposition, every decomposition has the same workspace, and the returned
slug is minimal among all decompositions. -/
theorem matchWsSlug_exact_sound (v w s : List Char)
    (h : matchWsSlug v = some (w, s)) :
    TailShape v w s ∧
    ∀ w' s', TailShape v w' s' → w' = w ∧ s.length ≤ s'.length := by
  refine ⟨matchWsSlug_sound v w s h, ?_⟩
  intro w' s' hts
  obtain ⟨suf', nl', hv', hw'ne, hw'nm, hs'ne, hs'nm, hsuf', hnl'⟩ := hts
  obtain ⟨pre, rest, hv, hpre, hw, hne, hm⟩ := wsLoop_sound v [] w s h
  simp only [List.reverse_nil, List.nil_append] at hw
  have hsplit := split_at_char_unique '/' w' pre (s' ++ suf' ++ nl') rest
    (by rw [← hv', hv]) hw'nm hpre
  refine ⟨hsplit.1.trans hw.symm, ?_⟩
  exact matchSlug_min rest s hm s' suf' nl' hsplit.2.symm hs'ne hsuf' hnl'

/-- Exact completeness of `([^/]+)/([^/]+?)(\.git)?$`: on the decomposition
with the minimal slug, the engine returns exactly that pair. -/
theorem matchWsSlug_exact (v w r : List Char) (h : TailShape v w r)
    (hmin : ∀ w' r', TailShape v w' r' → r.length ≤ r'.length) :
    matchWsSlug v = some (w, r) := by
  obtain ⟨p, hp⟩ := Option.isSome_iff_exists.mp (matchWsSlug_isSome v w r h)
  obtain ⟨w0, r0⟩ := p
  obtain ⟨ht0, huniq⟩ := matchWsSlug_exact_sound v w0 r0 hp
  obtain ⟨hw, hlen⟩ := huniq w r h
  have hlen2 := hmin w0 r0 ht0
  obtain ⟨suf, nl, hv, _, hwnm, _, _, _, _⟩ := h
  obtain ⟨suf0, nl0, hv0, _, hwnm0, _, _, _, _⟩ := ht0
  have hz := split_at_char_unique '/' w w0 (r ++ suf ++ nl) (r0 ++ suf0 ++ nl0)
    (hv.symm.trans hv0) hwnm hwnm0
  have hr : r = r0 := by
    have h1 := hz.2
    rw [List.append_assoc, List.append_assoc] at h1
    exact (List.append_inj h1 (Nat.le_antisymm hlen2 hlen)).1
  rw [hp, hw, hr]

/-- A well-shaped tail contains exactly one `/` (the workspace/slug
separator). -/
theorem tail_count_slash (u w r : List Char) (h : TailShape u w r) :
    List.count '/' u = 1 := by
  obtain ⟨suf, nl, hu, _, hwnm, _, hrnm, hsuf, hnl⟩ := h
  have hz : '/' ∉ r ++ suf ++ nl := slash_not_in_tail r suf nl hrnm hsuf hnl
  rw [hu, List.count_append, List.count_eq_zero.mpr hwnm,
    List.count_cons_self, List.count_eq_zero.mpr hz]

/-- A credential-free and a credentialed reading of the part after
`https://` cannot coincide: the credentialed one has an extra `@` before
the host, which would shift the host's `/` past the first one. -/
theorem cred_mixed_ne (c u1 u2 w1 r1 w2 r2 : List Char) (_hcnm : '@' ∉ c)
    (ht1 : TailShape u1 w1 r1) (ht2 : TailShape u2 w2 r2) :
    hostSlash ++ u1 ≠ (c ++ ['@']) ++ (hostSlash ++ u2) := by
  intro heq
  have hcount := congrArg (List.count '/') heq
  simp only [List.count_append] at hcount
  have hhs : List.count '/' hostSlash = 1 := by decide
  have hat : List.count '/' (['@'] : List Char) = 0 := by decide
  rw [hhs, hat, tail_count_slash u1 w1 r1 ht1, tail_count_slash u2 w2 r2 ht2]
    at hcount
  have hc0 : List.count '/' c = 0 := by omega
  have hcslash : '/' ∉ c := List.count_eq_zero.mp hc0
  have hbs : hostSlash = bbDot ++ ['/'] := by decide
  have hform : bbDot ++ '/' :: u1 = (c ++ '@' :: bbDot) ++ '/' :: u2 := by
    have e1 : hostSlash ++ u1 = bbDot ++ '/' :: u1 := by rw [hbs]; simp
    have e2 : (c ++ ['@']) ++ (hostSlash ++ u2) = (c ++ '@' :: bbDot) ++ '/' :: u2 := by
      rw [hbs]; simp
    rw [← e1, ← e2]
    exact heq
  have hsplit := split_at_char_unique '/' bbDot (c ++ '@' :: bbDot) u1 u2 hform
    (by decide)
    (by
      intro hm
      rcases List.mem_append.mp hm with hm | hm
      · exact hcslash hm
      · rcases List.mem_cons.mp hm with hm | hm
        · exact absurd hm (by decide)
        · exact absurd hm (by decide))
  have hlen := congrArg List.length hsplit.1
  simp only [List.length_append, List.length_cons] at hlen
  omega

/-- The credential/host/tail decomposition of the part after `https://` is
unique. -/
theorem https_cred_unique (cred1 u1 w1 r1 cred2 u2 w2 r2 : List Char)
    (hc1 : CredShape cred1) (hc2 : CredShape cred2)
    (ht1 : TailShape u1 w1 r1) (ht2 : TailShape u2 w2 r2)
    (heq : cred1 ++ (hostSlash ++ u1) = cred2 ++ (hostSlash ++ u2)) :
    cred1 = cred2 ∧ u1 = u2 := by
  rcases hc1 with h1 | ⟨c1, hc1ne, hc1nm, h1⟩ <;>
    rcases hc2 with h2 | ⟨c2, hc2ne, hc2nm, h2⟩
  · subst h1; subst h2
    simp only [List.nil_append] at heq
    exact ⟨rfl, List.append_cancel_left heq⟩
  · subst h1; subst h2
    simp only [List.nil_append] at heq
    exact absurd heq (cred_mixed_ne c2 u1 u2 w1 r1 w2 r2 hc2nm ht1 ht2)
  · subst h1; subst h2
    simp only [List.nil_append] at heq
    exact absurd heq.symm (cred_mixed_ne c1 u2 u1 w2 r2 w1 r1 hc1nm ht2 ht1)
  · subst h1; subst h2
    have heq2 : c1 ++ '@' :: (hostSlash ++ u1) = c2 ++ '@' :: (hostSlash ++ u2) := by
      simpa using heq
    have hsplit := split_at_char_unique '@' c1 c2 (hostSlash ++ u1)
      (hostSlash ++ u2) heq2 hc1nm hc2nm
    exact ⟨by rw [hsplit.1], List.append_cancel_left hsplit.2⟩

/-- Like `matchHttps_sound`, but keeping the inner `matchWsSlug` equation
instead of weakening it to a `TailShape`. -/
theorem matchHttps_parts (t : List Char) (p : List Char × List Char)
    (h : matchHttps t = some p) :
    ∃ cred u, CredShape cred ∧ t = cred ++ (hostSlash ++ u) ∧
      matchWsSlug u = some p := by
  cases hcase : httpsCred t with
  | some q =>
    have hval : matchHttps t = some q := by simp only [matchHttps, hcase]
    rw [hval] at h
    simp only [Option.some.injEq] at h
    subst h
    cases hsplit : splitAtAmp t with
    | none =>
      have : httpsCred t = none := by simp only [httpsCred, hsplit]
      rw [this] at hcase
      exact absurd hcase (by simp)
    | some cu =>
      obtain ⟨c, u⟩ := cu
      have hcval : httpsCred t =
          (if c = [] then none
           else if u.take 14 = hostSlash then matchWsSlug (u.drop 14) else none) := by
        simp only [httpsCred, hsplit]
      rw [hcval] at hcase
      split at hcase
      · exact absurd hcase (by simp)
      · rename_i hcne
        split at hcase
        · rename_i h14
          obtain ⟨ht, hno⟩ := splitAtAmp_sound t c u hsplit
          refine ⟨c ++ ['@'], u.drop 14, Or.inr ⟨c, hcne, hno, rfl⟩, ?_, hcase⟩
          rw [ht]
          conv_lhs =>
            rw [show u = u.take 14 ++ u.drop 14 from (List.take_append_drop 14 u).symm]
          rw [h14]
          simp
        · exact absurd hcase (by simp)
  | none =>
    have hval : matchHttps t =
        (if t.take 14 = hostSlash then matchWsSlug (t.drop 14) else none) := by
      simp only [matchHttps, hcase]
    rw [hval] at h
    split at h
    · rename_i h14
      refine ⟨[], t.drop 14, Or.inl rfl, ?_, h⟩
      conv_lhs =>
        rw [show t = t.take 14 ++ t.drop 14 from (List.take_append_drop 14 t).symm]
      rw [h14]
      simp
    · exact absurd h (by simp)

/-- Exact soundness of the HTTPS body match: the returned pair decomposes
the input, all decompositions share its workspace, and its slug is
minimal. -/
theorem matchHttps_exact_sound (t w r : List Char)
    (h : matchHttps t = some (w, r)) :
    (∃ cred u, CredShape cred ∧ t = cred ++ (hostSlash ++ u) ∧ TailShape u w r) ∧
    ∀ cred' u' w' r', CredShape cred' → t = cred' ++ (hostSlash ++ u') →
      TailShape u' w' r' → w' = w ∧ r.length ≤ r'.length := by
  obtain ⟨cred, u, hcred, ht, hm⟩ := matchHttps_parts t (w, r) h
  obtain ⟨hts, huniq⟩ := matchWsSlug_exact_sound u w r hm
  refine ⟨⟨cred, u, hcred, ht, hts⟩, ?_⟩
  intro cred' u' w' r' hcred' ht' hts'
  have hcu := https_cred_unique cred u w r cred' u' w' r' hcred hcred' hts hts'
    (by rw [← ht, ht'])
  exact huniq w' r' (by rw [hcu.2]; exact hts')

/-- Exact completeness of the HTTPS body match: on the minimal-slug
decomposition the engine returns exactly that pair. -/
theorem matchHttps_exact (t cred u w r : List Char) (hcred : CredShape cred)
    (ht : t = cred ++ (hostSlash ++ u)) (htail : TailShape u w r)
    (hmin : ∀ cred' u' w' r', CredShape cred' → t = cred' ++ (hostSlash ++ u') →
      TailShape u' w' r' → r.length ≤ r'.length) :
    matchHttps t = some (w, r) := by
  obtain ⟨p, hp⟩ := Option.isSome_iff_exists.mp
    (matchHttps_isSome t w r cred u hcred ht htail)
  obtain ⟨w0, r0⟩ := p
  obtain ⟨⟨cred0, u0, hcred0, ht0, hts0⟩, huniq⟩ := matchHttps_exact_sound t w0 r0 hp
  obtain ⟨hw, hlen⟩ := huniq cred u w r hcred ht htail
  have hlen2 := hmin cred0 u0 w0 r0 hcred0 ht0 hts0
  have hcu := https_cred_unique cred u w r cred0 u0 w0 r0 hcred hcred0 htail hts0
    (by rw [← ht, ht0])
  obtain ⟨suf, nl, hu, _, hwnm, _, _, _, _⟩ := htail
  obtain ⟨suf0, nl0, hu0, _, hwnm0, _, _, _, _⟩ := hts0
  have hz := split_at_char_unique '/' w w0 (r ++ suf ++ nl) (r0 ++ suf0 ++ nl0)
    (by rw [← hu, hcu.2, hu0]) hwnm hwnm0
  have hr : r = r0 := by
    have h1 := hz.2
    rw [List.append_assoc, List.append_assoc] at h1
    exact (List.append_inj h1 (Nat.le_antisymm hlen2 hlen)).1
  rw [hp, hw, hr]

/-- No string is simultaneously of the HTTPS shape and of the SSH shape
(the former starts with `h`, the latter with `g`). -/
theorem https_ssh_exclusive (v w1 r1 w2 r2 : List Char)
    (h1 : IsHttpsUrl v w1 r1) (h2 : IsSshUrl v w2 r2) : False := by
  obtain ⟨cred, u, _, hv1, _⟩ := h1
  obtain ⟨u2, hv2, _⟩ := h2
  have hh : v.head? = some 'h' := by rw [hv1]; rfl
  have hg : v.head? = some 'g' := by rw [hv2]; rfl
  rw [hh] at hg
  exact absurd hg (by decide)

/-- Exact soundness of the parser: the returned pair decomposes the input
in one of the two URL shapes, and among all such decompositions it is the
one with the (unique shared) workspace and the minimal slug. -/
theorem parse_exact_sound (s : String) (w r : String)
    (h : parse_bitbucket_origin s = some (w, r)) :
    (IsHttpsUrl s.toList w.toList r.toList ∨ IsSshUrl s.toList w.toList r.toList) ∧
    ∀ w' r' : List Char,
      (IsHttpsUrl s.toList w' r' ∨ IsSshUrl s.toList w' r') →
      w' = w.toList ∧ r.toList.length ≤ r'.length := by
  simp only [parse_bitbucket_origin] at h
  cases hhttps : (if s.toList.take 8 = httpsPre then matchHttps (s.toList.drop 8)
      else none) with
  | some p =>
    obtain ⟨lw, lr⟩ := p
    rw [hhttps] at h
    simp only [Option.some.injEq, Prod.mk.injEq] at h
    have h8 : s.toList.take 8 = httpsPre := by
      by_contra hc
      rw [if_neg hc] at hhttps
      exact Option.noConfusion hhttps
    rw [if_pos h8] at hhttps
    have hw : w.toList = lw := by rw [← h.1]; rfl
    have hr : r.toList = lr := by rw [← h.2]; rfl
    obtain ⟨⟨cred, u, hcred, ht, hts⟩, huniq⟩ := matchHttps_exact_sound _ lw lr hhttps
    have hvdecomp : s.toList = httpsPre ++ (cred ++ (hostSlash ++ u)) := by
      conv_lhs => rw [← List.take_append_drop 8 s.toList]
      rw [h8, ht]
    constructor
    · left
      exact ⟨cred, u, hcred, hvdecomp, by rw [hw, hr]; exact hts⟩
    · intro w' r' hshape
      rcases hshape with ⟨cred', u', hcred', hv', hts'⟩ | ⟨u', hv', hts'⟩
      · have hd' : s.toList.drop 8 = cred' ++ (hostSlash ++ u') := by
          rw [hv']
          exact List.drop_left' (by decide)
        have huw := huniq cred' u' w' r' hcred' hd' hts'
        exact ⟨by rw [hw]; exact huw.1, by rw [hr]; exact huw.2⟩
      · exact absurd (⟨u', hv', hts'⟩ : IsSshUrl s.toList w' r')
          (fun hss => https_ssh_exclusive s.toList w.toList r.toList w' r'
            ⟨cred, u, hcred, hvdecomp, by rw [hw, hr]; exact hts⟩ hss)
  | none =>
    rw [hhttps] at h
    cases hssh : (if s.toList.take 18 = sshPre then matchWsSlug (s.toList.drop 18)
        else none) with
    | none => rw [hssh] at h; exact Option.noConfusion h
    | some p =>
      obtain ⟨lw, lr⟩ := p
      rw [hssh] at h
      simp only [Option.some.injEq, Prod.mk.injEq] at h
      have h18 : s.toList.take 18 = sshPre := by
        by_contra hc
        rw [if_neg hc] at hssh
        exact Option.noConfusion hssh
      rw [if_pos h18] at hssh
      have hw : w.toList = lw := by rw [← h.1]; rfl
      have hr : r.toList = lr := by rw [← h.2]; rfl
      have hvdecomp : s.toList = sshPre ++ s.toList.drop 18 := by
        conv_lhs => rw [← List.take_append_drop 18 s.toList]
        rw [h18]
      obtain ⟨hts0, huniq⟩ := matchWsSlug_exact_sound _ lw lr hssh
      constructor
      · right
        exact ⟨s.toList.drop 18, hvdecomp, by rw [hw, hr]; exact hts0⟩
      · intro w' r' hshape
        rcases hshape with ⟨cred', u', hcred', hv', hts'⟩ | ⟨u', hv', hts'⟩
        · exfalso
          have h8 : s.toList.take 8 = httpsPre := by
            rw [hv']
            exact List.take_left' (by decide)
          rw [if_pos h8] at hhttps
          have hd8 : s.toList.drop 8 = cred' ++ (hostSlash ++ u') := by
            rw [hv']
            exact List.drop_left' (by decide)
          have hsome := matchHttps_isSome (s.toList.drop 8) w' r' cred' u' hcred'
            hd8 hts'
          rw [hhttps] at hsome
          simp at hsome
        · have hu' : u' = s.toList.drop 18 := by
            rw [hv']
            exact (List.drop_left' (by decide)).symm
          have huw := huniq w' r' (by rw [← hu']; exact hts')
          exact ⟨by rw [hw]; exact huw.1, by rw [hr]; exact huw.2⟩

/-- Exact completeness of the parser: on the minimal-slug decomposition of
an input of either URL shape, the parser returns exactly that pair. -/
theorem parse_exact (s : String) (w r : List Char)
    (h : IsHttpsUrl s.toList w r ∨ IsSshUrl s.toList w r)
    (hmin : ∀ w' r' : List Char,
      (IsHttpsUrl s.toList w' r' ∨ IsSshUrl s.toList w' r') → r.length ≤ r'.length) :
    parse_bitbucket_origin s = some (w.asString, r.asString) := by
  simp only [parse_bitbucket_origin]
  rcases h with ⟨cred, u, hcred, hv, htail⟩ | ⟨u, hv, htail⟩
  · have h8 : s.toList.take 8 = httpsPre := by
      rw [hv]
      exact List.take_left' (by decide)
    have hdrop : s.toList.drop 8 = cred ++ (hostSlash ++ u) := by
      rw [hv]
      exact List.drop_left' (by decide)
    rw [if_pos h8, hdrop]
    have hmexact : matchHttps (cred ++ (hostSlash ++ u)) = some (w, r) := by
      apply matchHttps_exact (cred ++ (hostSlash ++ u)) cred u w r hcred rfl htail
      intro cred' u' w' r' hcred' ht' hts'
      exact hmin w' r' (Or.inl ⟨cred', u', hcred', by rw [hv, ht'], hts'⟩)
    rw [hmexact]
  · have h8 : ¬(s.toList.take 8 = httpsPre) := by
      rw [hv, List.take_append_of_le_length (by decide)]
      decide
    rw [if_neg h8]
    have h18 : s.toList.take 18 = sshPre := by
      rw [hv]
      exact List.take_left' (by decide)
    have hdrop : s.toList.drop 18 = u := by
      rw [hv]
      exact List.drop_left' (by decide)
    rw [if_pos h18, hdrop]
    have hmexact : matchWsSlug u = some (w, r) := by
      apply matchWsSlug_exact u w r htail
      intro w' r' hts'
      exact hmin w' r' (Or.inr ⟨u, hv, hts'⟩)
    rw [hmexact]

/-- C6 (amended): exact characterization of the Origin Parser.  First
conjunct: every pair the parser returns is the canonical decomposition of
the input in one of the two claimed URL shapes
(`https://[credentials@]bitbucket.org/<workspace>/<slug>[.git]` or
`git@bitbucket.org:<workspace>/<slug>[.git]`, case-sensitive, with one
trailing newline additionally tolerated per Python `$` semantics): all
decompositions of the input share its workspace, and its slug is the
shortest — i.e. the optional `.git` suffix and trailing newline are
stripped from the slug, so `.../acme/widgets.git` yields exactly
`("acme", "widgets")`.  In particular strings of neither shape yield
`none`.  Second conjunct, conversely: on the minimal-slug decomposition of
any input of either shape, the parser returns exactly that embedded
`(workspace, slug)` pair. -/
theorem c6_parser_characterization (s : String) :
    (∀ w r : String, parse_bitbucket_origin s = some (w, r) →
      (IsHttpsUrl s.toList w.toList r.toList ∨ IsSshUrl s.toList w.toList r.toList) ∧
      ∀ w' r' : List Char, (IsHttpsUrl s.toList w' r' ∨ IsSshUrl s.toList w' r') →
        w' = w.toList ∧ r.toList.length ≤ r'.length) ∧
    (∀ w r : List Char, (IsHttpsUrl s.toList w r ∨ IsSshUrl s.toList w r) →
      (∀ w' r' : List Char, (IsHttpsUrl s.toList w' r' ∨ IsSshUrl s.toList w' r') →
        r.length ≤ r'.length) →
      parse_bitbucket_origin s = some (w.asString, r.asString)) :=
  ⟨fun w r h => parse_exact_sound s w r h,
   fun w r h hmin => parse_exact s w r h hmin⟩

/-- Witness for `c6_parser_characterization` at
`https://bitbucket.org/acme/widgets.git`: the parser's output
`("acme", "widgets")` is the minimal-slug decomposition (first conjunct),
and conversely the minimal-slug decomposition forces exactly that
output (second conjunct). -/
theorem c6_parser_characterization_witness :
    (((IsHttpsUrl ("https://bitbucket.org/acme/widgets.git".toList)
          ("acme".toList) ("widgets".toList) ∨
       IsSshUrl ("https://bitbucket.org/acme/widgets.git".toList)
          ("acme".toList) ("widgets".toList)) ∧
      ∀ w' r' : List Char,
        (IsHttpsUrl ("https://bitbucket.org/acme/widgets.git".toList) w' r' ∨
         IsSshUrl ("https://bitbucket.org/acme/widgets.git".toList) w' r') →
        w' = "acme".toList ∧ ("widgets".toList).length ≤ r'.length) ∧
     parse_bitbucket_origin "https://bitbucket.org/acme/widgets.git" =
       some (("acme".toList).asString, ("widgets".toList).asString)) :=
  ⟨(c6_parser_characterization "https://bitbucket.org/acme/widgets.git").1
      "acme" "widgets" (by decide),
   (c6_parser_characterization "https://bitbucket.org/acme/widgets.git").2
      ("acme".toList) ("widgets".toList)
      (Or.inl ⟨[], "acme/widgets.git".toList, Or.inl rfl, by decide,
        ⟨gitChars, [], by decide, by decide, by decide, by decide, by decide,
         Or.inr rfl, Or.inl rfl⟩⟩)
      (fun w' r' hs =>
        (((c6_parser_characterization "https://bitbucket.org/acme/widgets.git").1
            "acme" "widgets" (by decide)).2 w' r' hs).2)⟩

/-- C6, as stated, is false: the claim demands `None` for any string with
trailing characters beyond the whole-string match, but Python's `$` also
matches just before a final newline, so an SSH URL with a trailing newline
still parses. -/
theorem c6_counterexample :
    parse_bitbucket_origin "git@bitbucket.org:a/b\n" = some ("a", "b") := by
  decide

/-! ## Claims C3 and C9 -/

/-- C3, as stated, is false: the `load_state` of update-git-origins.py has
no `try/except`, so unreadable or unparseable persisted content raises
(modelled by `none`) instead of degrading to the empty mapping. -/
theorem c3_counterexample : ugo_load_state .unreadable = none := rfl

/-- C3 (amended): the migrator's loader returns the empty mapping on a
missing file, on unreadable/unparseable content, and on a non-mapping top
level; the update-git-origins loader returns the empty mapping on a missing
file and on a non-mapping top level, but raises on unreadable/unparseable
content. -/
theorem c3_loader_degradation :
    (migrator_load_state .missing = []) ∧
    (migrator_load_state .unreadable = []) ∧
    (∀ j, jsonIsDict j = false → migrator_load_state (.parsed j) = []) ∧
    (ugo_load_state .missing = some []) ∧
    (∀ j, jsonIsDict j = false → ugo_load_state (.parsed j) = some []) ∧
    (ugo_load_state .unreadable = none) := by
  refine ⟨rfl, rfl, ?_, rfl, ?_, rfl⟩
  · intro j hj
    cases j <;> first | rfl | exact absurd hj (by simp [jsonIsDict])
  · intro j hj
    cases j <;> first | rfl | exact absurd hj (by simp [jsonIsDict])

/-- Witness for `c3_loader_degradation` at a non-mapping top level. -/
theorem c3_loader_degradation_witness :
    (jsonIsDict .jnull = false) ∧
    (migrator_load_state (.parsed .jnull) = []) ∧
    (ugo_load_state (.parsed .jnull) = some []) :=
  ⟨rfl, c3_loader_degradation.2.2.1 .jnull rfl,
   c3_loader_degradation.2.2.2.2.1 .jnull rfl⟩

/-- C9, as stated, is false: the two state loaders are not behaviorally
identical.  On a record with no `status` field the migrator's loader
defaults the status to `"pending"` while the update-git-origins loader
defaults it to `""` (and on unreadable content the former degrades to empty
while the latter raises, see `ugo_load_state`). -/
theorem c9_counterexample :
    ugo_load_state (.parsed (.jobj [("k", .jobj [])])) ≠
      some (migrator_load_state (.parsed (.jobj [("k", .jobj [])]))) := by
  decide

/-- C9 (amended): the duplicated `parse_bitbucket_origin`, `build_updates`
and `apply_updates` are behaviorally identical across the two copies; the
two state loaders differ in exactly the status default for records missing
a `status` field (`"pending"` versus `""`) and in their treatment of
unreadable/unparseable content (empty mapping versus a propagating
exception). -/
theorem c9_duplicate_implementations :
    (∀ s, ugo_parse_bitbucket_origin s = parse_bitbucket_origin s) ∧
    (∀ repos state d, ugo_build_updates repos state d = ou_build_updates repos state d) ∧
    (∀ us, ugo_apply_updates us = ou_apply_updates us) ∧
    (migrator_load_state .unreadable = [] ∧ ugo_load_state .unreadable = none) ∧
    (∀ k, migrator_load_state (.parsed (.jobj [(k, .jobj [])])) =
        [(k, ⟨"pending", "", ""⟩)] ∧
      ugo_load_state (.parsed (.jobj [(k, .jobj [])])) = some [(k, ⟨"", "", ""⟩)]) := by
  refine ⟨fun _ => rfl, fun repos state d => rfl, fun us => ?_, ⟨rfl, rfl⟩,
    fun k => ⟨rfl, rfl⟩⟩
  induction us with
  | nil => rfl
  | cons u rest ih => simp [ugo_apply_updates, ou_apply_updates, ih]

end Migrator
